import Mathlib

set_option linter.unusedVariables false

/-!
Verification development for the slipscheme JSON-schema-to-Go struct generator
(`slipscheme.go`).  The Go program is shallowly embedded: Go maps
(`map[string]*Schema`) are modelled as association lists in document order
(schemas that occur in practice have distinct keys and their present maps are
non-empty, so Go's nil-map/empty-map distinction is not observable here),
Go strings are modelled as Lean `String` with character-list operations
(`String.data`), and the two pieces of process-wide mutable state (the
processed-type cache and the anonymous-object counter) are threaded
explicitly.  The ASCII fragment of `strings.Title` / `unicode` is modelled,
which covers every identifier the generator manipulates.  Recursion that the
Go program performs without a bound (reference-chain following) is modelled
with an explicit fuel parameter; exhausting fuel is a distinct outcome
(`Err.fuel`) that corresponds to the Go program failing to terminate, and a
Go runtime panic (nil dereference / failed type assertion) is the outcome
`Err.crash`.
-/

/-- `SchemaType` from slipscheme.go: the closed set of schema kinds. -/
inductive SchemaType where
  | ANY
  | ARRAY
  | BOOLEAN
  | INTEGER
  | NUMBER
  | NULL
  | OBJECT
  | STRING
deriving DecidableEq

/-- The `Schema` struct from slipscheme.go.  Field order follows the Go
declaration: Title, ID, Type, Description, Definitions, Properties,
PatternProperties, Ref, Items. -/
inductive Schema where
  | mk (title : String) (id : String) (type : SchemaType) (description : String)
      (definitions : List (String × Schema)) (properties : List (String × Schema))
      (patternProperties : List (String × Schema)) (ref : String)
      (items : Option Schema)

def Schema.title : Schema → String
  | .mk t _ _ _ _ _ _ _ _ => t

def Schema.id : Schema → String
  | .mk _ i _ _ _ _ _ _ _ => i

def Schema.type : Schema → SchemaType
  | .mk _ _ ty _ _ _ _ _ _ => ty

def Schema.description : Schema → String
  | .mk _ _ _ d _ _ _ _ _ => d

def Schema.definitions : Schema → List (String × Schema)
  | .mk _ _ _ _ defs _ _ _ _ => defs

def Schema.properties : Schema → List (String × Schema)
  | .mk _ _ _ _ _ props _ _ _ => props

def Schema.patternProperties : Schema → List (String × Schema)
  | .mk _ _ _ _ _ _ pprops _ _ => pprops

def Schema.ref : Schema → String
  | .mk _ _ _ _ _ _ _ r _ => r

def Schema.items : Schema → Option Schema
  | .mk _ _ _ _ _ _ _ _ it => it

/-- `Schema.Name()`: the Title, or the ID when the Title is empty. -/
def Schema.name (s : Schema) : String :=
  if s.title ≠ "" then s.title else s.id

/-- Replace the title (models the Go assignment `schema.Title = ...`). -/
def Schema.withTitle : Schema → String → Schema
  | .mk _ i ty d defs props pprops r it, t => .mk t i ty d defs props pprops r it

/-- Outcomes of the embedded program that are not normal returns.
`invalidPoint` and `invalidFile` are the two error returns of
`resolveRefs`; `crash` models a Go runtime panic (nil-pointer dereference or
a failed single-value type assertion); `fuel` is the modelling artifact for
non-termination of the unbounded Go recursion. -/
inductive Err where
  | invalidPoint (reference : String)
  | invalidFile (reference referenceName : String)
  | crash
  | fuel
deriving DecidableEq

/-- ASCII alphanumeric test, as written in `camelCase`'s `strings.Map`
callback: `(r >= '0' && r <= '9') || (r >= 'a' && r <= 'z') || (r >= 'A' && r <= 'Z')`. -/
def isAlnumChar (c : Char) : Bool :=
  ('0' ≤ c && c ≤ '9') || ('a' ≤ c && c ≤ 'z') || ('A' ≤ c && c ≤ 'Z')

/-- `unicode.ToTitle` / `unicode.ToUpper` restricted to ASCII: each basic
latin lower-case letter maps to its upper-case form, everything else is
unchanged (tabulated so that its behaviour is immediate by case split). -/
def upperChar (c : Char) : Char :=
  if c = 'a' then 'A' else if c = 'b' then 'B' else if c = 'c' then 'C'
  else if c = 'd' then 'D' else if c = 'e' then 'E' else if c = 'f' then 'F'
  else if c = 'g' then 'G' else if c = 'h' then 'H' else if c = 'i' then 'I'
  else if c = 'j' then 'J' else if c = 'k' then 'K' else if c = 'l' then 'L'
  else if c = 'm' then 'M' else if c = 'n' then 'N' else if c = 'o' then 'O'
  else if c = 'p' then 'P' else if c = 'q' then 'Q' else if c = 'r' then 'R'
  else if c = 's' then 'S' else if c = 't' then 'T' else if c = 'u' then 'U'
  else if c = 'v' then 'V' else if c = 'w' then 'W' else if c = 'x' then 'X'
  else if c = 'y' then 'Y' else if c = 'z' then 'Z' else c

/-- Go `isSeparator` (used by `strings.Title`), ASCII fragment: everything
except ASCII letters, digits and underscore separates words. -/
def isSepChar (c : Char) : Bool :=
  !(isAlnumChar c || c = '_')

/-- Character-by-character model of Go `strings.Title`: the first character
of each word (a maximal run not preceded by a separator) is title-cased.
The Boolean argument records whether the previous character was a
separator; it starts as `true`. -/
def goTitleChars : Bool → List Char → List Char
  | _, [] => []
  | prevSep, c :: r =>
    (if prevSep then upperChar c else c) :: goTitleChars (isSepChar c) r

/-- Go `strings.Title` on a `String` (ASCII fragment). -/
def goTitle (s : String) : String :=
  String.mk (goTitleChars true s.data)

/-- Go `strings.ToUpper` (ASCII fragment). -/
def goToUpper (s : String) : String :=
  String.mk (s.data.map upperChar)

/-- Byte-wise string comparison `a <= b` as used by Go's `sort.Strings`
(for ASCII, byte order and code-point order agree). -/
def chLe : List Char → List Char → Bool
  | [], _ => true
  | _ :: _, [] => false
  | a :: as, b :: bs => if a = b then chLe as bs else decide (a < b)

def strLe (a b : String) : Bool :=
  chLe a.data b.data

/-- Insert into a `strLe`-sorted list (auxiliary for `sortStrings`). -/
def insertStr (x : String) : List String → List String
  | [] => [x]
  | y :: r => if strLe x y then x :: y :: r else y :: insertStr x r

/-- Model of Go `sort.Strings` (insertion sort; the keys sorted by the
program are distinct, so any correct sort gives the same list). -/
def sortStrings : List String → List String
  | [] => []
  | x :: r => insertStr x (sortStrings r)

/-- Go map lookup `m[key]` on the association-list model; `none` is Go's
nil `*Schema` for an absent key. -/
def lookupS : List (String × Schema) → String → Option Schema
  | [], _ => none
  | (k, v) :: r, key => if k = key then some v else lookupS r key

/-- Go `strings.Split(s, "/")` on the character list of a non-empty string. -/
def splitSlash : List Char → List (List Char)
  | [] => [[]]
  | c :: r =>
    if c = '/' then [] :: splitSlash r
    else
      match splitSlash r with
      | w :: t => (c :: w) :: t
      | [] => [[c]]

/-- Does `l` start with `p`? (Go `strings.HasPrefix`.) -/
def leadsWith : List Char → List Char → Bool
  | _, [] => true
  | [], _ :: _ => false
  | c :: r, p :: ps => c = p && leadsWith r ps

/-- Does `l` end with `suf`? (Go `strings.HasSuffix`.) -/
def trailsWith (l suf : List Char) : Bool :=
  leadsWith l.reverse suf.reverse

/-- Drop the last `n` characters (Go `strings.TrimSuffix` after a
successful suffix check). -/
def dropLastN (l : List Char) (n : Nat) : List Char :=
  l.take (l.length - n)

/-- Go `strings.TrimPrefix(s, "*")`. -/
def dropStar (s : String) : String :=
  match s.data with
  | '*' :: r => String.mk r
  | _ => s

/-- Upper-case every character of a character list (Go `strings.ToUpper` on
the suffix/prefix literals of `camelCase`). -/
def upperL (l : List Char) : List Char :=
  l.map upperChar

/-- The `strings.Map` callback inside `camelCase`: ASCII alphanumerics pass
through, everything else becomes a space (a word boundary). -/
def mapAlnumChar (c : Char) : Char :=
  if isAlnumChar c then c else ' '

/-- The canonical identifier before acronym fix-up: map non-alphanumerics
to spaces, `strings.Title`, then remove the spaces
(`strings.Replace(caseName, " ", "", -1)`). -/
def caseBase (name : String) : List Char :=
  (goTitleChars true (name.data.map mapAlnumChar)).filter (fun c => c ≠ ' ')

/-- The two acronym loops at the end of `camelCase`: upper-case a matching
`Id`/`Url`/`Json`/`Xml` suffix (the Go loop returns on the first match, so
a matching suffix pre-empts the prefix loop), otherwise upper-case a
matching `Url`/`Json`/`Xml` prefix. -/
def acronymFix (caseName : List Char) : String :=
  if trailsWith caseName "Id".data then
    String.mk (dropLastN caseName 2 ++ upperL "Id".data)
  else if trailsWith caseName "Url".data then
    String.mk (dropLastN caseName 3 ++ upperL "Url".data)
  else if trailsWith caseName "Json".data then
    String.mk (dropLastN caseName 4 ++ upperL "Json".data)
  else if trailsWith caseName "Xml".data then
    String.mk (dropLastN caseName 3 ++ upperL "Xml".data)
  else if leadsWith caseName "Url".data then
    String.mk (upperL "Url".data ++ caseName.drop 3)
  else if leadsWith caseName "Json".data then
    String.mk (upperL "Json".data ++ caseName.drop 4)
  else if leadsWith caseName "Xml".data then
    String.mk (upperL "Xml".data ++ caseName.drop 3)
  else String.mk caseName

/-- `camelCase` from slipscheme.go: the canonical base form followed by the
acronym fix-up. -/
def camelCase (name : String) : String :=
  acronymFix (caseBase name)

/-- `Name()` computed from a title and an id (the node's title is threaded
separately through the naming passes below, because the Go code assigns a
node's Title field and then recurses into the same node). -/
def goName (t i : String) : String :=
  if t ≠ "" then t else i

/-- Worker for `updateDefinitionTitles`; the first argument is the node's
effective title (the Go code may assign `v.Title = k` right before the
recursive call, which the embedding expresses by passing the assigned title
in). Only `definitions` entries are retitled and recursed into. -/
def updateDefinitionTitlesCore : String → Schema → Schema
  | t, .mk _ i ty d defs props pprops r it =>
    .mk t i ty d (updKVs defs) props pprops r it
where
  updKVs : List (String × Schema) → List (String × Schema)
    | [] => []
    | (k, v) :: rest =>
      let vt := if goName v.title v.id = "" then k else v.title
      (k, updateDefinitionTitlesCore vt v) :: updKVs rest

/-- `updateDefinitionTitles` from slipscheme.go. -/
def updateDefinitionTitles (s : Schema) : Schema :=
  updateDefinitionTitlesCore s.title s

/-- `updateReferencePath` from slipscheme.go: recurse through definitions,
properties, patternProperties and items, then qualify the node's own `$ref`
with the document's reference key when its first `/`-segment is `"#"`. -/
def updateReferencePath : Schema → String → Schema
  | .mk t i ty d defs props pprops ref it, reference =>
    let defs' := updKVs defs reference
    let props' := updKVs props reference
    let pprops' := updKVs pprops reference
    let it' :=
      match it with
      | none => none
      | some item => some (updateReferencePath item reference)
    let ref' :=
      if ref ≠ "" then
        match splitSlash ref.data with
        | p :: _ => if p = ['#'] then reference ++ ref else ref
        | [] => ref
      else ref
    .mk t i ty d defs' props' pprops' ref' it'
where
  updKVs : List (String × Schema) → String → List (String × Schema)
    | [], _ => []
    | (k, v) :: rest, reference =>
      (k, updateReferencePath v reference) :: updKVs rest reference

/-- Worker for `setTitle`; the `t` argument is the node's effective title
(assigned by the caller just before recursing, mirroring the Go mutation
order), `cnt` the process-wide anonymous-object counter. Children are
visited in the Go order: definitions, properties, patternProperties, items;
an unnamed items child names the parent `AnonymousObject<N>` first when the
parent is itself unnamed, then receives `<parentName>Item`. -/
def setTitleCore (r : String) : Nat → String → Schema → Nat × Schema
  | cnt, t, .mk _ i ty d defs props pprops ref it =>
    let (cnt₁, defs') := goKVs cnt defs
    let (cnt₂, props') := goKVs cnt₁ props
    let (cnt₃, pprops') := goKVs cnt₂ pprops
    match it with
    | none => (cnt₃, .mk t i ty d defs' props' pprops' ref none)
    | some item =>
      if goName item.title item.id = "" then
        let (cnt₄, t') :=
          if goName t i = "" then
            (cnt₃ + 1, "AnonymousObject" ++ Nat.repr (cnt₃ + 1))
          else (cnt₃, t)
        let itemTitle := goName t' i ++ "Item"
        let (cnt₅, item') := setTitleCore r cnt₄ itemTitle item
        (cnt₅, .mk t' i ty d defs' props' pprops' ref (some item'))
      else
        let (cnt₄, item') := setTitleCore r cnt₃ item.title item
        (cnt₄, .mk t i ty d defs' props' pprops' ref (some item'))
where
  goKVs : Nat → List (String × Schema) → Nat × List (String × Schema)
    | cnt, [] => (cnt, [])
    | cnt, (k, v) :: rest =>
      let vt := if goName v.title v.id = "" then k else v.title
      let (cnt₁, v') := setTitleCore r cnt vt v
      let (cnt₂, rest') := goKVs cnt₁ rest
      (cnt₂, (k, v') :: rest')

/-- `setTitle` from slipscheme.go (the name-assignment pass); returns the
updated anonymous-object counter together with the retitled tree. -/
def setTitle (cnt : Nat) (r : String) (s : Schema) : Nat × Schema :=
  setTitleCore r cnt s.title s

/-- Height of a schema tree (a measure used to state how much fuel the
fuel-indexed functions below need). -/
def heightB : Schema → Nat
  | .mk _ _ _ _ defs props pprops _ it =>
    1 + max (hKVs defs) (max (hKVs props) (max (hKVs pprops)
      (match it with | none => 0 | some s => heightB s)))
where
  hKVs : List (String × Schema) → Nat
    | [] => 0
    | (_, v) :: rest => max (heightB v) (hKVs rest)

/-- Every node of the tree is fully named, in the precise sense that a
second run of the name-assignment pass cannot change anything: each map
child either has a derivable name or already carries its map key as title
(possibly the empty key), and each items child has a derivable name. -/
def titledB : Schema → Bool
  | .mk _ _ _ _ defs props pprops _ it =>
    tKVs defs && tKVs props && tKVs pprops &&
      (match it with
       | none => true
       | some item => (goName item.title item.id != "") && titledB item)
where
  tKVs : List (String × Schema) → Bool
    | [] => true
    | (k, v) :: rest =>
      (goName v.title v.id != "" || v.title == k) && titledB v && tKVs rest

/-- No `$ref` anywhere in the tree. -/
def refFreeB : Schema → Bool
  | .mk _ _ _ _ defs props pprops ref it =>
    ref == "" && fKVs defs && fKVs props && fKVs pprops &&
      (match it with | none => true | some s => refFreeB s)
where
  fKVs : List (String × Schema) → Bool
    | [] => true
    | (_, v) :: rest => refFreeB v && fKVs rest

/-- The dynamic context of the reference-path walk inside `resolveRefs`:
the Go `interface\x7b\x7d` value is either a `*Schema` (possibly a typed
nil, modelled `node none`) or a `map[string]*Schema`. -/
inductive Ctx where
  | node : Option Schema → Ctx
  | smap : List (String × Schema) → Ctx

/-- The reference-path walk of `resolveRefs` (its `for` loop over the split
path).  A literal `#` errors ("invalid reference point"); a part ending in
`#` switches context to the named document ("invalid reference file" when
absent); the four keyword segments descend through the matching field of
the context, crashing (the Go single-value type assertion
`ctx.(*Schema)` panics) when the context is a map, and crashing on the
nil-pointer field access when it is a nil `*Schema`; any other segment is
looked up when the context is a map — an absent key silently yields Go's
typed-nil `*Schema` — and silently leaves any other context unchanged
(the comma-ok assertion fails). -/
def walkParts (docs : List (String × Schema)) (reference : String) :
    Ctx → List (List Char) → Except Err Ctx
  | ctx, [] => .ok ctx
  | ctx, part :: rest =>
    if part = ['#'] then .error (.invalidPoint reference)
    else if trailsWith part ['#'] then
      let referenceName := String.mk (dropLastN part 1)
      match lookupS docs referenceName with
      | some referenceSchema => walkParts docs reference (.node (some referenceSchema)) rest
      | none => .error (.invalidFile reference referenceName)
    else if part = "definitions".data then
      match ctx with
      | .node (some s) => walkParts docs reference (.smap s.definitions) rest
      | _ => .error .crash
    else if part = "properties".data then
      match ctx with
      | .node (some s) => walkParts docs reference (.smap s.properties) rest
      | _ => .error .crash
    else if part = "patternProperties".data then
      match ctx with
      | .node (some s) => walkParts docs reference (.smap s.patternProperties) rest
      | _ => .error .crash
    else if part = "items".data then
      match ctx with
      | .node (some s) => walkParts docs reference (.node s.items) rest
      | _ => .error .crash
    else
      match ctx with
      | .smap m => walkParts docs reference (.node (lookupS m (String.mk part))) rest
      | c => walkParts docs reference c rest

/-- Apply a fallible transformation to every value of an association list,
keeping keys (the shape of the `for _, v := range ...` children loops of
`resolveRefs`, which mutate each child in place and stop at the first
error). -/
def mapKVsM (f : Schema → Except Err Schema) :
    List (String × Schema) → Except Err (List (String × Schema))
  | [] => .ok []
  | (k, v) :: rest => do
    let v' ← f v
    let rest' ← mapKVsM f rest
    .ok ((k, v') :: rest')

/-- `resolveRefs` from slipscheme.go, fuel-indexed (the Go recursion is
unbounded; `Err.fuel` is the modelling artifact for its divergence).  When
the node carries a `$ref`: the split path is walked starting from the node
itself; a non-nil `*Schema` final context replaces the node wholesale
(`*schema = *cast`), a typed-nil final context crashes on the nil
dereference, a map final context leaves the node unchanged; resolution then
recurses on the same node (following reference chains) before the children
passes.  Children are resolved in the Go order: definitions, properties,
patternProperties, items. -/
def resolveRefs (docs : List (String × Schema)) (reference : String) :
    Nat → Schema → Except Err Schema
  | 0, _ => .error .fuel
  | fuel + 1, schema => do
    let schema₁ ←
      if schema.ref == "" then pure schema
      else do
        let ctx ← walkParts docs reference (.node (some schema)) (splitSlash schema.ref.data)
        match ctx with
        | .node (some cast) => resolveRefs docs reference fuel cast
        | .node none => .error .crash
        | .smap _ => resolveRefs docs reference fuel schema
    match schema₁ with
    | .mk t i ty d defs props pprops ref it =>
      let defs' ← mapKVsM (fun v => resolveRefs docs reference fuel v) defs
      let props' ← mapKVsM (fun v => resolveRefs docs reference fuel v) props
      let pprops' ← mapKVsM (fun v => resolveRefs docs reference fuel v) pprops
      let it' ←
        match it with
        | none => pure none
        | some item => do
          let item' ← resolveRefs docs reference fuel item
          pure (some item')
      pure (.mk t i ty d defs' props' pprops' ref it')

/-- The children pass of `resolveRefs` (the code after the reference
substitution): resolve definitions, properties, patternProperties and
items of the node, in the Go order, keeping the scalar fields. -/
def resolveChildren (docs : List (String × Schema)) (reference : String) (fuel : Nat) :
    Schema → Except Err Schema
  | .mk t i ty d defs props pprops ref it => do
    let defs' ← mapKVsM (fun v => resolveRefs docs reference fuel v) defs
    let props' ← mapKVsM (fun v => resolveRefs docs reference fuel v) props
    let pprops' ← mapKVsM (fun v => resolveRefs docs reference fuel v) pprops
    let it' ←
      match it with
      | none => pure none
      | some item => do
        let item' ← resolveRefs docs reference fuel item
        pure (some item')
    pure (.mk t i ty d defs' props' pprops' ref it')

/-- The model of `SchemaProcessor`: the `Comment` flag (the only
configuration the synthesis logic itself consults), the processed-type
cache, and the trace of emission requests forwarded to the emission sink,
in order.  `OutputDir`, `PackageName`, `Overwrite`, `Stdout` and `Fmt`
only steer the I/O glue (where the bytes go), not which declarations are
produced, and are left out. -/
structure Proc where
  comment : Bool
  processed : List String
  output : List (String × String)
deriving DecidableEq

/-- `writeGoCode` from slipscheme.go, restricted to its cache discipline: a
type name already marked processed is a no-op returning success (Go returns
a nil error without writing); otherwise the name is recorded in the cache
and the code is handed to the emission sink. -/
def writeGoCode (p : Proc) (typeName code : String) : Proc :=
  if p.processed.contains typeName then p
  else { p with
          processed := typeName :: p.processed
          output := p.output ++ [(typeName, code)] }

/-- JSON values arising when marshalling a `Schema` (only strings and
objects occur). -/
inductive JVal where
  | str : String → JVal
  | obj : List (String × JVal) → JVal

/-- `MarshalJSON` of `SchemaType`. -/
def typeMarshal : SchemaType → String
  | .ANY => "object"
  | .ARRAY => "array"
  | .BOOLEAN => "boolean"
  | .INTEGER => "integer"
  | .NUMBER => "number"
  | .NULL => "null"
  | .OBJECT => "object"
  | .STRING => "string"

/-- Insertion into a key-sorted association list (auxiliary for
`sortKeyed`). -/
def insertKeyed {α : Type} (x : String × α) : List (String × α) → List (String × α)
  | [] => [x]
  | y :: r => if strLe x.1 y.1 then x :: y :: r else y :: insertKeyed x r

/-- Sort an association list by key (Go `encoding/json` marshals map
entries in sorted key order). -/
def sortKeyed {α : Type} : List (String × α) → List (String × α)
  | [] => []
  | x :: r => insertKeyed x (sortKeyed r)

/-- `encoding/json` marshalling of a `Schema`: struct fields in declaration
order with `omitempty` (dropping empty strings, the zero `SchemaType`
`ANY`, empty maps and nil items), map entries in sorted key order. -/
def schemaJVal : Schema → JVal
  | .mk t i ty d defs props pprops ref it =>
    .obj
      ((if t == "" then [] else [("title", JVal.str t)]) ++
       (if i == "" then [] else [("id", JVal.str i)]) ++
       (if ty = .ANY then [] else [("type", JVal.str (typeMarshal ty))]) ++
       (if d == "" then [] else [("description", JVal.str d)]) ++
       (if defs.isEmpty then [] else [("definitions", JVal.obj (sortKeyed (jKVs defs)))]) ++
       (if props.isEmpty then [] else [("properties", JVal.obj (sortKeyed (jKVs props)))]) ++
       (if pprops.isEmpty then [] else [("patternProperties", JVal.obj (sortKeyed (jKVs pprops)))]) ++
       (if ref == "" then [] else [("$ref", JVal.str ref)]) ++
       (match it with | none => [] | some item => [("items", schemaJVal item)]))
where
  jKVs : List (String × Schema) → List (String × JVal)
    | [] => []
    | (k, v) :: rest => (k, schemaJVal v) :: jKVs rest

/-- `s` repeated `n` times (for indentation levels). -/
def repeatStr (s : String) : Nat → String
  | 0 => ""
  | n + 1 => s ++ repeatStr s n

/-- `json.MarshalIndent` rendering of a `JVal`: every newline is followed
by the prefix and the per-depth indent, keys and values are separated by a
colon and a space, and an empty object prints as a brace pair. -/
def renderJVal (pre ind : String) : JVal → Nat → String
  | .str s, _ => "\"" ++ s ++ "\""
  | .obj [], _ => "\x7b\x7d"
  | .obj (f :: fs), depth =>
    "\x7b\n" ++ renderFields (f :: fs) (depth + 1) ++ "\n" ++ pre ++
      repeatStr ind depth ++ "\x7d"
where
  renderFields : List (String × JVal) → Nat → String
    | [], _ => ""
    | [(k, v)], depth =>
      pre ++ repeatStr ind depth ++ "\"" ++ k ++ "\": " ++ renderJVal pre ind v depth
    | (k, v) :: f :: fs, depth =>
      pre ++ repeatStr ind depth ++ "\"" ++ k ++ "\": " ++ renderJVal pre ind v depth ++
        ",\n" ++ renderFields (f :: fs) depth

/-- `structComment` from slipscheme.go: empty when comments are disabled,
otherwise the type name and the pretty-printed source schema behind `// `
markers (`json.MarshalIndent(schema, "// ", "  ")`). -/
def structComment (p : Proc) (schema : Schema) (typeName : String) : String :=
  if !p.comment then ""
  else
    "// " ++ typeName ++ " defined from schema:\n// " ++
      renderJVal "// " "  " (schemaJVal schema) 0 ++ "\n"

/-- `processSchema` from slipscheme.go (the type synthesizer),
fuel-indexed; returns Go's `typeName` result together with the updated
processor state.  `Err.crash` models the Go panics: an array schema with
nil `Items` reaches `processSchema(nil)`, and a sorted key missing from its
own map (impossible for a Go map) would make the recursive call
dereference nil. -/
def processSchema : Nat → Proc → Schema → Except Err (String × Proc)
  | 0, _, _ => .error .fuel
  | fuel + 1, p, schema =>
    if schema.type = .OBJECT then
      let typeName := camelCase schema.name
      if !schema.properties.isEmpty then do
        let keys := sortStrings (schema.properties.map Prod.fst)
        let (typeData, p₁) ← keys.foldlM
          (fun (acc : String × Proc) k =>
            match lookupS schema.properties k with
            | none => .error .crash
            | some v => do
              let (subTypeName, p') ← processSchema fuel acc.2 v
              pure (acc.1 ++ "    " ++ camelCase k ++ " " ++ subTypeName ++
                    " `json:\"" ++ k ++ ",omitempty\" yaml:\"" ++ k ++ ",omitempty\"`\n", p'))
          (structComment p schema typeName ++ "type " ++ typeName ++ " struct \x7b\n", p)
        let typeData := typeData ++ "\x7d\n\n"
        pure ("*" ++ typeName, writeGoCode p₁ typeName typeData)
      else if !schema.patternProperties.isEmpty then
        let keys := sortStrings (schema.patternProperties.map Prod.fst)
        keys.foldlM
          (fun (acc : String × Proc) k =>
            match lookupS schema.patternProperties k with
            | none => .error .crash
            | some v => do
              let (subTypeName, p') ← processSchema fuel acc.2 v
              if goTitle subTypeName == subTypeName then
                let mapName := dropStar (subTypeName ++ "Map")
                let typeData := structComment p' schema mapName ++ "type " ++ mapName ++
                  " map[string]" ++ subTypeName ++ "\n\n"
                pure (mapName, writeGoCode p' mapName typeData)
              else
                pure ("map[string]" ++ subTypeName, p'))
          (typeName, p)
      else
        pure ("map[string]interface\x7b\x7d", p)
    else if schema.type = .ARRAY then
      match schema.items with
      | none => .error .crash
      | some item => do
        let (subTypeName, p₁) ← processSchema fuel p item
        let typeName := camelCase schema.name
        let typeName :=
          if typeName == "" then
            if goTitle subTypeName == subTypeName then
              if trailsWith subTypeName.data ['s'] then subTypeName ++ "es"
              else subTypeName ++ "s"
            else ""
          else typeName
        if typeName ≠ "" then
          let typeName := dropStar typeName
          let typeData := structComment p₁ schema typeName ++ "type " ++ typeName ++
            " []" ++ subTypeName ++ "\n\n"
          pure (typeName, writeGoCode p₁ typeName typeData)
        else
          pure ("[]" ++ subTypeName, p₁)
    else if schema.type = .BOOLEAN then pure ("bool", p)
    else if schema.type = .INTEGER then pure ("int", p)
    else if schema.type = .NUMBER then pure ("float64", p)
    else if schema.type = .NULL ∨ schema.type = .ANY then pure ("interface\x7b\x7d", p)
    else pure ("string", p)

/-- One iteration of the properties loop of `processSchema` (named so the
loop can be reasoned about): look the key up in the property map,
synthesize the value schema, and append the struct field line to the
accumulated declaration text. -/
def objStep (fuel : Nat) (props : List (String × Schema)) (acc : String × Proc)
    (k : String) : Except Err (String × Proc) :=
  match lookupS props k with
  | none => .error .crash
  | some v => do
    let (subTypeName, p') ← processSchema fuel acc.2 v
    pure (acc.1 ++ "    " ++ camelCase k ++ " " ++ subTypeName ++
          " `json:\"" ++ k ++ ",omitempty\" yaml:\"" ++ k ++ ",omitempty\"`\n", p')

/-- One iteration of the patternProperties loop of `processSchema`:
synthesize the value schema, then either emit a named `<ValueType>Map`
declaration (the value type is capitalized, `strings.Title`-fixed) and
return its name, or return an inline `map[string]T` reference; the
accumulator's name component is overwritten either way. -/
def patternStep (fuel : Nat) (schema : Schema) (acc : String × Proc) (k : String) :
    Except Err (String × Proc) :=
  match lookupS schema.patternProperties k with
  | none => .error .crash
  | some v => do
    let (subTypeName, p') ← processSchema fuel acc.2 v
    if goTitle subTypeName == subTypeName then
      let mapName := dropStar (subTypeName ++ "Map")
      let typeData := structComment p' schema mapName ++ "type " ++ mapName ++
        " map[string]" ++ subTypeName ++ "\n\n"
      pure (mapName, writeGoCode p' mapName typeData)
    else
      pure ("map[string]" ++ subTypeName, p')

/-- The tail of the ARRAY branch of `processSchema` after the recursive
call on the items schema: pluralize a capitalized anonymous element type
(or keep the assigned name), then emit a named sequence declaration, or
return an inline `[]T` reference. -/
def arrayFinish (schema : Schema) (x : String × Proc) : Except Err (String × Proc) :=
  match x with
  | (subTypeName, p₁) =>
    let typeName := camelCase schema.name
    let typeName :=
      if typeName == "" then
        if goTitle subTypeName == subTypeName then
          if trailsWith subTypeName.data ['s'] then subTypeName ++ "es"
          else subTypeName ++ "s"
        else ""
      else typeName
    if typeName ≠ "" then
      let typeName := dropStar typeName
      let typeData := structComment p₁ schema typeName ++ "type " ++ typeName ++
        " []" ++ subTypeName ++ "\n\n"
      pure (typeName, writeGoCode p₁ typeName typeData)
    else
      pure ("[]" ++ subTypeName, p₁)

/-- `LoadSchema` minus the JSON decoder (decoding is I/O glue; inputs enter
the model as already-parsed trees): the two normalization passes in their
Go order. -/
def loadSchemaTree (schema : Schema) (reference : String) : Schema :=
  updateReferencePath (updateDefinitionTitles schema) reference

/-- `Load` over a document list: each document gets its normalization
passes, keyed by its reference name (`getReferenceName`, the base file
name, is I/O glue; keys enter the model directly). -/
def loadAll (docs : List (String × Schema)) : List (String × Schema) :=
  docs.map (fun kv => (kv.1, loadSchemaTree kv.2 kv.1))

/-- `ParseSchema` from slipscheme.go: resolve references, then run the
name-assignment pass, threading the anonymous-object counter. -/
def parseSchemaM (fuel : Nat) (docs : List (String × Schema)) (cnt : Nat)
    (reference : String) (schema : Schema) : Except Err (Nat × Schema) := do
  let s' ← resolveRefs docs reference fuel schema
  .ok (setTitle cnt reference s')

/-- The parse loop of `Process`: documents are parsed in order against the
document set, in which (as in Go, where the map holds pointers mutated in
place) already-parsed documents appear in resolved form. -/
def parseAll (fuel : Nat) : Nat → List (String × Schema) → List (String × Schema) →
    Except Err (Nat × List (String × Schema))
  | cnt, done, [] => .ok (cnt, done)
  | cnt, done, (k, s) :: todo => do
    let (cnt', s') ← parseSchemaM fuel (done ++ (k, s) :: todo) cnt k s
    parseAll fuel cnt' (done ++ [(k, s')]) todo

/-- `Process` from slipscheme.go: parse every loaded document, then
synthesize every parsed root, in the same order. -/
def processM (fuel : Nat) (p : Proc) (docs : List (String × Schema)) : Except Err Proc := do
  let (_, parsed) ← parseAll fuel 0 [] docs
  parsed.foldlM
    (fun p kv => do
      let (_, p') ← processSchema fuel p kv.2
      pure p')
    p

/-- A sequence of emission requests against `writeGoCode`, in order. -/
def runWrites (p : Proc) (reqs : List (String × String)) : Proc :=
  reqs.foldl (fun p r => writeGoCode p r.1 r.2) p

/-- Words of a character list: the maximal runs of ASCII alphanumerics,
every non-alphanumeric character acting as a separator.  This is the
specification-side reading of "each non-alphanumeric character is treated
as a word boundary". -/
def specWords : List Char → List (List Char)
  | [] => []
  | c :: r =>
    if isAlnumChar c then
      match r with
      | [] => [[c]]
      | d :: _ =>
        if isAlnumChar d then
          match specWords r with
          | w :: ws => (c :: w) :: ws
          | [] => [[c]]
        else [c] :: specWords r
    else specWords r

/-- Capitalize the first character of a word. -/
def capWord : List Char → List Char
  | [] => []
  | c :: r => upperChar c :: r

/-- Concatenation of capitalized words. -/
def joinCap (ws : List (List Char)) : List Char :=
  (ws.map capWord).flatten

/-- The specification-side canonical base form: split at non-alphanumeric
boundaries, capitalize every word (the first included), concatenate. -/
def specBase (l : List Char) : List Char :=
  joinCap (specWords l)

/-- Mid-word variant of `specBase`: the current word continues verbatim,
words after the next separator are capitalized (only used to relate the
code's one-pass computation to `specBase`). -/
def specTail : List Char → List Char
  | [] => []
  | c :: r => if isAlnumChar c then c :: specTail r else specBase r

/-- The claim-side canonicalization: `specBase` followed by the same
acronym fix-up (with suffix precedence) as the code. -/
def camelCaseSpec (name : String) : String :=
  acronymFix (specBase name.data)

/-! ### Concrete inputs for the end-to-end scenarios -/

/-- A bare `\x7b"type":"string"\x7d` schema. -/
def strS : Schema := .mk "" "" .STRING "" [] [] [] "" none

/-- A bare `\x7b"type":"integer"\x7d` schema. -/
def intS : Schema := .mk "" "" .INTEGER "" [] [] [] "" none

/-- The document `a.json`: `#/definitions/Widget` is an object with
properties `id:string` and `count:integer`. -/
def aRaw : Schema :=
  .mk "" "" .ANY ""
    [("Widget", .mk "" "" .OBJECT "" [] [("id", strS), ("count", intS)] [] "" none)]
    [] [] "" none

/-- The document `b.json` exactly as the claim words it: an object whose
property `w` is `\x7b"$ref":"a#/definitions/Widget"\x7d`. -/
def bRawBad : Schema :=
  .mk "" "" .OBJECT "" [] [("w", .mk "" "" .ANY "" [] [] [] "a#/definitions/Widget" none)]
    [] "" none

/-- The working variant of `b.json`: the document part of the reference is
the full document key `a.json` (keys keep their extension), and the root
carries the title `b` (no pass titles a root from its file name). -/
def bRawGood : Schema :=
  .mk "b" "" .OBJECT "" []
    [("w", .mk "" "" .ANY "" [] [] [] "a.json#/definitions/Widget" none)] [] "" none

/-- A node referencing `a.json#/definitions/Missing` — a path whose final
segment is absent from the `definitions` map of `a.json`. -/
def wMissing : Schema := .mk "" "" .ANY "" [] [] [] "a.json#/definitions/Missing" none

/-- An untitled array schema whose items are `\x7b"type":"string"\x7d`. -/
def arrRaw : Schema := .mk "" "" .ARRAY "" [] [] [] "" (some strS)

/-- A fresh processor with comments disabled and nothing emitted. -/
def freshP : Proc := ⟨false, [], []⟩

/-- Decidable reading of the claim-side hypothesis "reference chain of
depth at most N with no cycle against the loaded document set", relative
to the resolution walk: a node with an empty reference is chain-resolvable
when all its children are (with one step less of budget); a node with a
reference is chain-resolvable when the reference-path walk lands on a
(non-nil) node of the document set whose chain is in turn resolvable.  A
cyclic chain satisfies this for no budget, and the budget bounds the chain
depth together with the tree height. -/
def resolvableB (docs : List (String × Schema)) (reference : String) : Nat → Schema → Bool
  | 0, _ => false
  | n + 1, s =>
    if s.ref == "" then
      (s.definitions.all fun kv => resolvableB docs reference n kv.2) &&
      (s.properties.all fun kv => resolvableB docs reference n kv.2) &&
      (s.patternProperties.all fun kv => resolvableB docs reference n kv.2) &&
      (match s.items with
       | none => true
       | some item => resolvableB docs reference n item)
    else
      match walkParts docs reference (.node (some s)) (splitSlash s.ref.data) with
      | .ok (.node (some cast)) => resolvableB docs reference n cast
      | _ => false

/-- A plain named object, the end of the two-hop reference chain below. -/
def chainA : Schema := .mk "A" "" .OBJECT "" [] [] [] "" none

/-- The middle of the chain: references `chainA`. -/
def chainB : Schema := .mk "" "" .ANY "" [] [] [] "c.json#/definitions/A" none

/-- The document `c.json` holding both chain targets as definitions. -/
def chainDoc : Schema :=
  .mk "" "" .ANY "" [("A", chainA), ("B", chainB)] [] [] "" none

/-- The chain's head: references `chainB`, which references `chainA`. -/
def chainX : Schema := .mk "" "" .ANY "" [] [] [] "c.json#/definitions/B" none

/-! ### Order lemmas for the byte-wise string comparison -/

theorem chLe_total (a b : List Char) : chLe a b = true ∨ chLe b a = true := by
  induction a generalizing b with
  | nil => left; rfl
  | cons x xs ih =>
    cases b with
    | nil => right; rfl
    | cons y ys =>
      by_cases hxy : x = y
      · subst hxy
        simpa [chLe] using ih ys
      · rcases lt_trichotomy x y with h | h | h
        · left; simp [chLe, hxy, h]
        · exact absurd h hxy
        · right; simp [chLe, Ne.symm hxy, h, not_lt_of_gt h]

theorem chLe_trans {a b c : List Char} (h₁ : chLe a b = true) (h₂ : chLe b c = true) :
    chLe a c = true := by
  induction a generalizing b c with
  | nil => rfl
  | cons x xs ih =>
    cases b with
    | nil => simp [chLe] at h₁
    | cons y ys =>
      cases c with
      | nil => simp [chLe] at h₂
      | cons z zs =>
        by_cases hxy : x = y <;> by_cases hyz : y = z
        · subst hxy; subst hyz
          simp only [chLe, if_pos rfl] at h₁ h₂ ⊢
          exact ih h₁ h₂
        · subst hxy
          simp only [chLe, if_neg hyz, decide_eq_true_eq] at h₂
          simp [chLe, hyz, h₂]
        · subst hyz
          simp only [chLe, if_neg hxy, decide_eq_true_eq] at h₁
          simp [chLe, hxy, h₁]
        · simp only [chLe, if_neg hxy, decide_eq_true_eq] at h₁
          simp only [chLe, if_neg hyz, decide_eq_true_eq] at h₂
          have hxz : x < z := lt_trans h₁ h₂
          simp [chLe, ne_of_lt hxz, hxz]

theorem chLe_antisymm {a b : List Char} (h₁ : chLe a b = true) (h₂ : chLe b a = true) :
    a = b := by
  induction a generalizing b with
  | nil =>
    cases b with
    | nil => rfl
    | cons y ys => simp [chLe] at h₂
  | cons x xs ih =>
    cases b with
    | nil => simp [chLe] at h₁
    | cons y ys =>
      by_cases hxy : x = y
      · subst hxy
        simp only [chLe, if_pos rfl] at h₁ h₂
        exact congrArg (x :: ·) (ih h₁ h₂)
      · simp only [chLe, if_neg hxy, decide_eq_true_eq] at h₁
        simp only [chLe, if_neg (Ne.symm hxy), decide_eq_true_eq] at h₂
        exact absurd h₁ (not_lt_of_gt h₂)

theorem str_ext {a b : String} (h : a.data = b.data) : a = b := by
  cases a
  cases b
  exact congrArg String.mk h

theorem strLe_total (a b : String) : strLe a b = true ∨ strLe b a = true :=
  chLe_total a.data b.data

theorem strLe_trans {a b c : String} (h₁ : strLe a b = true) (h₂ : strLe b c = true) :
    strLe a c = true :=
  chLe_trans h₁ h₂

theorem strLe_antisymm {a b : String} (h₁ : strLe a b = true) (h₂ : strLe b a = true) :
    a = b :=
  str_ext (chLe_antisymm h₁ h₂)

/-! ### Sorting lemmas -/

theorem insertStr_perm (x : String) (l : List String) :
    (insertStr x l).Perm (x :: l) := by
  induction l with
  | nil => exact List.Perm.refl _
  | cons y ys ih =>
    by_cases h : strLe x y = true
    · simp [insertStr, h]
    · simp only [insertStr, if_neg h]
      exact (ih.cons y).trans (List.Perm.swap x y ys)

theorem sortStrings_perm (l : List String) : (sortStrings l).Perm l := by
  induction l with
  | nil => exact List.Perm.refl _
  | cons x xs ih =>
    exact (insertStr_perm x (sortStrings xs)).trans (ih.cons x)

theorem insertStr_pairwise (x : String) (l : List String)
    (h : l.Pairwise (fun a b => strLe a b = true)) :
    (insertStr x l).Pairwise (fun a b => strLe a b = true) := by
  induction l with
  | nil => simp [insertStr]
  | cons y ys ih =>
    by_cases hxy : strLe x y = true
    · simp only [insertStr, if_pos hxy]
      refine List.Pairwise.cons ?_ h
      intro z hz
      rcases List.mem_cons.mp hz with rfl | hz
      · exact hxy
      · exact strLe_trans hxy (List.rel_of_pairwise_cons h hz)
    · simp only [insertStr, if_neg hxy]
      have hyx : strLe y x = true := (strLe_total x y).resolve_left hxy
      refine List.Pairwise.cons ?_ (ih (List.Pairwise.of_cons h))
      intro z hz
      rcases List.mem_cons.mp ((insertStr_perm x ys).mem_iff.mp hz) with rfl | hz'
      · exact hyx
      · exact List.rel_of_pairwise_cons h hz'

theorem sortStrings_pairwise (l : List String) :
    (sortStrings l).Pairwise (fun a b => strLe a b = true) := by
  induction l with
  | nil => simp [sortStrings]
  | cons x xs ih => exact insertStr_pairwise x (sortStrings xs) ih

instance : IsAntisymm String (fun a b => strLe a b = true) :=
  ⟨fun _ _ => strLe_antisymm⟩

theorem sortStrings_eq_of_perm {l₁ l₂ : List String} (h : l₁.Perm l₂) :
    sortStrings l₁ = sortStrings l₂ :=
  List.eq_of_perm_of_sorted
    (((sortStrings_perm l₁).trans h).trans (sortStrings_perm l₂).symm)
    (sortStrings_pairwise l₁) (sortStrings_pairwise l₂)

theorem insertKeyed_perm {α : Type} (x : String × α) (l : List (String × α)) :
    (insertKeyed x l).Perm (x :: l) := by
  induction l with
  | nil => exact List.Perm.refl _
  | cons y ys ih =>
    by_cases h : strLe x.1 y.1 = true
    · simp [insertKeyed, h]
    · simp only [insertKeyed, if_neg h]
      exact (ih.cons y).trans (List.Perm.swap x y ys)

theorem sortKeyed_perm {α : Type} (l : List (String × α)) : (sortKeyed l).Perm l := by
  induction l with
  | nil => exact List.Perm.refl _
  | cons x xs ih =>
    exact (insertKeyed_perm x (sortKeyed xs)).trans (ih.cons x)

theorem insertKeyed_pairwise {α : Type} (x : String × α) (l : List (String × α))
    (h : l.Pairwise (fun a b => strLe a.1 b.1 = true)) :
    (insertKeyed x l).Pairwise (fun a b => strLe a.1 b.1 = true) := by
  induction l with
  | nil => simp [insertKeyed]
  | cons y ys ih =>
    by_cases hxy : strLe x.1 y.1 = true
    · simp only [insertKeyed, if_pos hxy]
      refine List.Pairwise.cons ?_ h
      intro z hz
      rcases List.mem_cons.mp hz with rfl | hz
      · exact hxy
      · exact strLe_trans hxy (List.rel_of_pairwise_cons h hz)
    · simp only [insertKeyed, if_neg hxy]
      have hyx : strLe y.1 x.1 = true := (strLe_total x.1 y.1).resolve_left hxy
      refine List.Pairwise.cons ?_ (ih (List.Pairwise.of_cons h))
      intro z hz
      rcases List.mem_cons.mp ((insertKeyed_perm x ys).mem_iff.mp hz) with rfl | hz'
      · exact hyx
      · exact List.rel_of_pairwise_cons h hz'

theorem sortKeyed_pairwise {α : Type} (l : List (String × α)) :
    (sortKeyed l).Pairwise (fun a b => strLe a.1 b.1 = true) := by
  induction l with
  | nil => simp [sortKeyed]
  | cons x xs ih => exact insertKeyed_pairwise x (sortKeyed xs) ih

theorem sortKeyed_eq_of_perm {α : Type} {l₁ l₂ : List (String × α)} (h : l₁.Perm l₂)
    (hnd : (l₁.map Prod.fst).Nodup) : sortKeyed l₁ = sortKeyed l₂ := by
  have hperm : (sortKeyed l₁).Perm (sortKeyed l₂) :=
    ((sortKeyed_perm l₁).trans h).trans (sortKeyed_perm l₂).symm
  have hkey : ∀ (m : List (String × α)), m.Perm l₁ →
      m.Pairwise (fun a b => strLe a.1 b.1 = true) →
      m.Pairwise (fun a b : String × α => strLe a.1 b.1 = true ∧ a.1 ≠ b.1) := by
    intro m hm hsorted
    have hmnd : (m.map Prod.fst).Nodup := ((hm.map Prod.fst).nodup_iff).mpr hnd
    have hne : m.Pairwise (fun a b : String × α => a.1 ≠ b.1) :=
      (List.pairwise_map).mp hmnd
    exact hsorted.and hne
  have : IsAntisymm (String × α) (fun a b => strLe a.1 b.1 = true ∧ a.1 ≠ b.1) :=
    ⟨fun a b h₁ h₂ => absurd (strLe_antisymm h₁.1 h₂.1) h₁.2⟩
  exact List.eq_of_perm_of_sorted hperm
    (hkey _ (sortKeyed_perm l₁) (sortKeyed_pairwise l₁))
    (hkey _ ((sortKeyed_perm l₂).trans h.symm) (sortKeyed_pairwise l₂))

theorem lookupS_eq_of_perm {l₁ l₂ : List (String × Schema)} (h : l₁.Perm l₂) :
    (l₁.map Prod.fst).Nodup → ∀ k, lookupS l₁ k = lookupS l₂ k := by
  induction h with
  | nil => intro _ _; rfl
  | cons x h ih =>
    intro hnd k
    simp only [List.map_cons, List.nodup_cons] at hnd
    simp only [lookupS]
    exact if_congr Iff.rfl rfl (ih hnd.2 k)
  | swap x y l =>
    intro hnd k
    have hne : y.1 ≠ x.1 := by
      simp only [List.map_cons, List.nodup_cons, List.mem_cons] at hnd
      intro hc
      exact hnd.1 (Or.inl hc)
    simp only [lookupS]
    by_cases h₁ : y.1 = k <;> by_cases h₂ : x.1 = k
    · exact absurd (h₁.trans h₂.symm) hne
    · simp [h₁, h₂]
    · simp [h₁, h₂]
    · simp [h₁, h₂]
  | trans h₁ h₂ ih₁ ih₂ =>
    intro hnd k
    refine (ih₁ hnd k).trans (ih₂ ?_ k)
    exact ((h₁.map Prod.fst).nodup_iff).mp hnd

/-! ### C3: the processed-type cache gives at-most-once emission per name -/

theorem contains_iff_mem {l : List String} {a : String} : l.contains a = true ↔ a ∈ l :=
  List.elem_iff

theorem writeGoCode_skip {p : Proc} {n : String} (c : String)
    (h : p.processed.contains n = true) : writeGoCode p n c = p := by
  unfold writeGoCode
  simp [contains_iff_mem.mp h]

theorem writeGoCode_fresh {p : Proc} {n : String} (c : String)
    (h : ¬ p.processed.contains n = true) :
    writeGoCode p n c = ⟨p.comment, n :: p.processed, p.output ++ [(n, c)]⟩ := by
  unfold writeGoCode
  simp only [h, if_neg, Bool.not_eq_true]

theorem writeGoCode_inv (p : Proc) (n c : String)
    (h₁ : (p.output.map Prod.fst).Nodup)
    (h₂ : ∀ x ∈ p.output.map Prod.fst, x ∈ p.processed) :
    ((writeGoCode p n c).output.map Prod.fst).Nodup ∧
    ∀ x ∈ (writeGoCode p n c).output.map Prod.fst, x ∈ (writeGoCode p n c).processed := by
  by_cases h : p.processed.contains n = true
  · rw [writeGoCode_skip c h]
    exact ⟨h₁, h₂⟩
  · have hn : n ∉ p.output.map Prod.fst := by
      intro hmem
      exact h (contains_iff_mem.mpr (h₂ n hmem))
    rw [writeGoCode_fresh c h]
    constructor
    · have hdisj : (List.map Prod.fst p.output).Disjoint [n] := by
        intro a ha hb
        rcases List.mem_singleton.mp hb with rfl
        exact hn ha
      simpa using List.Nodup.append h₁ (List.nodup_singleton n) hdisj
    · intro x hx
      simp only [List.map_append, List.mem_append, List.map_cons, List.map_nil,
        List.mem_singleton] at hx
      rcases hx with hx | hx
      · exact List.mem_cons_of_mem n (h₂ x hx)
      · exact hx ▸ List.mem_cons_self n p.processed

theorem runWrites_inv (reqs : List (String × String)) (p : Proc)
    (h₁ : (p.output.map Prod.fst).Nodup)
    (h₂ : ∀ x ∈ p.output.map Prod.fst, x ∈ p.processed) :
    ((runWrites p reqs).output.map Prod.fst).Nodup := by
  induction reqs generalizing p with
  | nil => exact h₁
  | cons r rs ih =>
    have step := writeGoCode_inv p r.1 r.2 h₁ h₂
    exact ih (writeGoCode p r.1 r.2) step.1 step.2

/-- C3: over one program invocation the emission step writes at most one
declaration per type name.  First conjunct: the first `writeGoCode` request
for a name records it in the processed-type cache and any later request for
the same name is a no-op (Go returns a nil error without writing).  Second
conjunct: starting from a fresh processor, any sequence of emission
requests produces an output trace whose declaration names are pairwise
distinct. -/
theorem writeGoCode_at_most_once :
    (∀ (p : Proc) (n c c' : String),
        (writeGoCode p n c).processed.contains n = true ∧
        writeGoCode (writeGoCode p n c) n c' = writeGoCode p n c) ∧
    (∀ (cmt : Bool) (reqs : List (String × String)),
        ((runWrites ⟨cmt, [], []⟩ reqs).output.map Prod.fst).Nodup) := by
  constructor
  · intro p n c c'
    have hmem : (writeGoCode p n c).processed.contains n = true := by
      by_cases h : p.processed.contains n = true
      · rw [writeGoCode_skip c h]
        exact h
      · rw [writeGoCode_fresh c h]
        exact contains_iff_mem.mpr (List.mem_cons_self n p.processed)
    exact ⟨hmem, writeGoCode_skip c' hmem⟩
  · intro cmt reqs
    exact runWrites_inv reqs ⟨cmt, [], []⟩ List.nodup_nil (by intro x hx; simp at hx)

/-! ### C1: the reference-path qualification condition -/

/-- C1 counterexample: the claim says a non-empty reference whose path does
not contain a `#` is rewritten to `referenceKey ++ "#" ++ originalRef`.
The reference `"definitions/Widget"` contains no `#`, yet the
qualification pass leaves it unchanged (the code only rewrites references
whose first `/`-segment is exactly `"#"`), and in particular does not
produce `"a.json" ++ "#" ++ "definitions/Widget"`. -/
theorem updateReferencePath_counterexample :
    ("definitions/Widget".data.contains '#') = false ∧
    (updateReferencePath (.mk "" "" .ANY "" [] [] [] "definitions/Widget" none) "a.json").ref =
      "definitions/Widget" ∧
    ("definitions/Widget" : String) ≠ "a.json" ++ "#" ++ "definitions/Widget" :=
  ⟨by decide, rfl, by decide⟩

theorem updKVs_eq_map (l : List (String × Schema)) (reference : String) :
    updateReferencePath.updKVs l reference =
      l.map fun kv => (kv.1, updateReferencePath kv.2 reference) := by
  induction l with
  | nil => rfl
  | cons kv rest ih =>
    cases kv
    simp [updateReferencePath.updKVs, ih]

/-- C1 (amended): the qualification pass rewrites exactly those references
whose first `/`-segment is `"#"` (the bare same-document shorthand), and
the rewrite prepends the reference key to the original reference (the
original already begins with `#`, so the result reads
`referenceKey + "#" + rest`); every other reference — including one whose
path carries a document part `file#` and a relative reference containing no
`#` at all — is left unchanged.  The same transformation is applied
recursively to definitions, properties, patternProperties and items, so it
covers every node of the tree. -/
theorem updateReferencePath_qualifies (reference t i d ref : String) (ty : SchemaType)
    (defs props pprops : List (String × Schema)) (it : Option Schema) :
    updateReferencePath (.mk t i ty d defs props pprops ref it) reference =
      .mk t i ty d
        (defs.map fun kv => (kv.1, updateReferencePath kv.2 reference))
        (props.map fun kv => (kv.1, updateReferencePath kv.2 reference))
        (pprops.map fun kv => (kv.1, updateReferencePath kv.2 reference))
        (if ref ≠ "" ∧ (splitSlash ref.data).head? = some ['#'] then reference ++ ref
         else ref)
        (it.map fun item => updateReferencePath item reference) := by
  conv_lhs => unfold updateReferencePath
  simp only [updKVs_eq_map]
  congr 1
  · by_cases h : ref = ""
    · simp [h]
    · cases hsp : splitSlash ref.data with
      | nil => simp [h, hsp]
      | cons p rest =>
        by_cases hp : p = ['#'] <;> simp [h, hsp, hp]
  · cases it <;> rfl

/-! ### C8: name canonicalization -/

theorem alnum_toNat {c : Char} (hc : isAlnumChar c = true) :
    c.toNat < 128 ∧ c.toNat ≠ 32 := by
  simp only [isAlnumChar, Bool.or_eq_true, Bool.and_eq_true, decide_eq_true_eq] at hc
  rcases hc with (⟨h1, h2⟩ | ⟨h1, h2⟩) | ⟨h1, h2⟩
  · have l1 : 48 ≤ c.toNat := h1
    have l2 : c.toNat ≤ 57 := h2
    omega
  · have l1 : 97 ≤ c.toNat := h1
    have l2 : c.toNat ≤ 122 := h2
    omega
  · have l1 : 65 ≤ c.toNat := h1
    have l2 : c.toNat ≤ 90 := h2
    omega

theorem upperChar_table : ∀ n : Nat, n < 128 → upperChar (Char.ofNat n) = ' ' → n = 32 := by
  decide

theorem upperChar_ne_space {c : Char} (hc : isAlnumChar c = true) : upperChar c ≠ ' ' := by
  intro h
  obtain ⟨hlt, hne⟩ := alnum_toNat hc
  exact hne (upperChar_table c.toNat hlt (by rw [Char.ofNat_toNat]; exact h))

theorem alnum_ne_space {c : Char} (hc : isAlnumChar c = true) : c ≠ ' ' := by
  intro h
  subst h
  simp [isAlnumChar] at hc

theorem specWords_sep {c : Char} (r : List Char) (hc : isAlnumChar c = false) :
    specWords (c :: r) = specWords r := by
  cases r <;> simp [specWords, hc]

theorem specWords_single {c : Char} (hc : isAlnumChar c = true) :
    specWords [c] = [[c]] := by
  simp [specWords, hc]

theorem specWords_two_sep {c d : Char} (rd : List Char) (hc : isAlnumChar c = true)
    (hd : isAlnumChar d = false) :
    specWords (c :: d :: rd) = [c] :: specWords rd := by
  conv_lhs => rw [specWords]
  simp [hc, hd, specWords_sep rd hd]

theorem specWords_two_alnum {c d : Char} (rd : List Char) (hc : isAlnumChar c = true)
    (hd : isAlnumChar d = true) :
    specWords (c :: d :: rd) =
      match specWords (d :: rd) with
      | w :: ws => (c :: w) :: ws
      | [] => [[c]] := by
  conv_lhs => rw [specWords]
  simp [hc, hd]

theorem specWords_ne_nil {d : Char} (rd : List Char) (hd : isAlnumChar d = true) :
    specWords (d :: rd) ≠ [] := by
  cases rd with
  | nil => rw [specWords_single hd]; simp
  | cons e re =>
    by_cases he : isAlnumChar e = true
    · rw [specWords_two_alnum re hd he]
      cases specWords (e :: re) <;> simp
    · have he' : isAlnumChar e = false := by simpa using he
      rw [specWords_two_sep re hd he']
      simp

theorem specWords_head_join {d : Char} {rd : List Char} (hd : isAlnumChar d = true)
    {w : List Char} {ws : List (List Char)} (h : specWords (d :: rd) = w :: ws) :
    w ++ joinCap ws = specTail (d :: rd) := by
  induction rd generalizing d w ws with
  | nil =>
    rw [specWords_single hd] at h
    injection h with h1 h2
    subst h1
    subst h2
    simp [joinCap, specTail, hd]
  | cons e re ih =>
    by_cases he : isAlnumChar e = true
    · cases hw : specWords (e :: re) with
      | nil => exact absurd hw (specWords_ne_nil re he)
      | cons w' ws' =>
        rw [specWords_two_alnum re hd he, hw] at h
        injection h with h1 h2
        subst h1
        subst h2
        have hrec := ih he hw
        have hst : specTail (d :: e :: re) = d :: specTail (e :: re) := by
          simp [specTail, hd]
        rw [hst, List.cons_append, hrec]
    · have he' : isAlnumChar e = false := by simpa using he
      rw [specWords_two_sep re hd he'] at h
      injection h with h1 h2
      subst h1
      subst h2
      have hst : specTail (d :: e :: re) = d :: specBase re := by
        simp [specTail, hd, he']
      rw [hst]
      simp [specBase]

theorem specBase_cons {c : Char} (r : List Char) (hc : isAlnumChar c = true) :
    specBase (c :: r) = upperChar c :: specTail r := by
  cases r with
  | nil =>
    rw [specBase, specWords_single hc]
    simp [joinCap, capWord, specTail]
  | cons d rd =>
    by_cases hd : isAlnumChar d = true
    · cases hw : specWords (d :: rd) with
      | nil => exact absurd hw (specWords_ne_nil rd hd)
      | cons w ws =>
        have hjoin := specWords_head_join hd hw
        rw [specBase, specWords_two_alnum rd hc hd, hw]
        have hj : joinCap ((c :: w) :: ws) = upperChar c :: (w ++ joinCap ws) := by
          simp [joinCap, capWord]
        rw [hj, hjoin]
    · have hd' : isAlnumChar d = false := by simpa using hd
      rw [specBase, specWords_two_sep rd hc hd']
      have h1 : joinCap ([c] :: specWords rd) = upperChar c :: joinCap (specWords rd) := by
        simp [joinCap, capWord]
      have h2 : specTail (d :: rd) = specBase rd := by
        simp [specTail, hd']
      rw [h1, h2]
      rfl

theorem goTitle_filter_spec (l : List Char) :
    ((goTitleChars true (l.map mapAlnumChar)).filter (fun c => c ≠ ' ') = specBase l) ∧
    ((goTitleChars false (l.map mapAlnumChar)).filter (fun c => c ≠ ' ') = specTail l) := by
  induction l with
  | nil => exact ⟨rfl, rfl⟩
  | cons c r ih =>
    by_cases hc : isAlnumChar c = true
    · have hmap : mapAlnumChar c = c := by simp [mapAlnumChar, hc]
      have hsep : isSepChar c = false := by simp [isSepChar, hc]
      constructor
      · rw [List.map_cons, hmap,
          show goTitleChars true (c :: r.map mapAlnumChar) =
            upperChar c :: goTitleChars (isSepChar c) (r.map mapAlnumChar) from rfl,
          hsep]
        rw [List.filter_cons_of_pos (by simpa using upperChar_ne_space hc)]
        rw [ih.2, specBase_cons r hc]
      · rw [List.map_cons, hmap,
          show goTitleChars false (c :: r.map mapAlnumChar) =
            c :: goTitleChars (isSepChar c) (r.map mapAlnumChar) from rfl,
          hsep]
        rw [List.filter_cons_of_pos (by simpa using alnum_ne_space hc)]
        rw [ih.2]
        simp [specTail, hc]
    · have hc' : isAlnumChar c = false := by simpa using hc
      have hmap : mapAlnumChar c = ' ' := by simp [mapAlnumChar, hc']
      have hsep : isSepChar ' ' = true := by decide
      have hsw : specWords (c :: r) = specWords r := specWords_sep r hc'
      constructor
      · rw [List.map_cons, hmap,
          show goTitleChars true (' ' :: r.map mapAlnumChar) =
            upperChar ' ' :: goTitleChars (isSepChar ' ') (r.map mapAlnumChar) from rfl,
          hsep, show upperChar ' ' = ' ' from rfl]
        rw [List.filter_cons_of_neg (by simp)]
        rw [ih.1]
        simp [specBase, hsw]
      · rw [List.map_cons, hmap,
          show goTitleChars false (' ' :: r.map mapAlnumChar) =
            ' ' :: goTitleChars (isSepChar ' ') (r.map mapAlnumChar) from rfl,
          hsep]
        rw [List.filter_cons_of_neg (by simp)]
        rw [ih.1]
        simp [specTail, hc']

theorem caseBase_eq_specBase (name : String) : caseBase name = specBase name.data :=
  (goTitle_filter_spec name.data).1

/-- C8 counterexample: the input `"url_id"` canonicalizes to the base form
`"UrlId"`, which starts with `Url` and ends with `Id`.  The claim asks for
both the suffix rule and the prefix rule to apply, which would give
`"URLID"`; the code's suffix loop returns first, so the actual result is
`"UrlID"` — the `Url` prefix is not upper-cased. -/
theorem camelCase_counterexample :
    String.mk (caseBase "url_id") = "UrlId" ∧
    leadsWith (caseBase "url_id") "Url".data = true ∧
    camelCase "url_id" = "UrlID" ∧
    camelCase "url_id" ≠ "URLID" :=
  ⟨by decide, by decide, by decide, by decide⟩

/-- C8 (amended): name canonicalization maps `"user_id"` to `"UserID"` and
`"image_url"` to `"ImageURL"`.  In general `camelCase` agrees with the
specification-side description `camelCaseSpec`: split the input into
maximal runs of ASCII alphanumerics (so every non-alphanumeric character is
removed and acts as a word boundary), upper-case the first character of
every word (the first word included), concatenate, then apply the acronym
rules with suffix precedence — an identifier ending in
`Id`/`Url`/`Json`/`Xml` gets that suffix upper-cased, and only an
identifier with no such suffix but starting with `Url`/`Json`/`Xml` gets
that prefix upper-cased. -/
theorem camelCase_canonicalization :
    camelCase "user_id" = "UserID" ∧
    camelCase "image_url" = "ImageURL" ∧
    ∀ name : String, camelCase name = camelCaseSpec name := by
  refine ⟨by decide, by decide, fun name => ?_⟩
  unfold camelCase camelCaseSpec
  rw [caseBase_eq_specBase]

/-! ### C9: idempotence of the name-assignment pass -/

theorem data_append (a b : String) : (a ++ b).data = a.data ++ b.data := rfl

theorem append_ne_empty_right (a b : String) (hb : b.data ≠ []) : a ++ b ≠ "" := by
  intro h
  have hlen := congrArg (fun x => x.data.length) h
  simp only [data_append, List.length_append] at hlen
  rw [show (("" : String).data.length) = 0 from rfl] at hlen
  have hb0 : b.data.length ≠ 0 := fun h0 => hb (List.length_eq_zero.mp h0)
  omega

theorem append_ne_empty_left (a b : String) (ha : a.data ≠ []) : a ++ b ≠ "" := by
  intro h
  have hlen := congrArg (fun x => x.data.length) h
  simp only [data_append, List.length_append] at hlen
  rw [show (("" : String).data.length) = 0 from rfl] at hlen
  have ha0 : a.data.length ≠ 0 := fun h0 => ha (List.length_eq_zero.mp h0)
  omega

theorem heightB_mk (t i d : String) (ty : SchemaType)
    (defs props pprops : List (String × Schema)) (ref : String) (it : Option Schema) :
    heightB (.mk t i ty d defs props pprops ref it) =
      1 + max (heightB.hKVs defs) (max (heightB.hKVs props) (max (heightB.hKVs pprops)
        (match it with | none => 0 | some s => heightB s))) := by
  rw [heightB.eq_def]

theorem hKVs_cons (k : String) (v : Schema) (rest : List (String × Schema)) :
    heightB.hKVs ((k, v) :: rest) = max (heightB v) (heightB.hKVs rest) := by
  conv_lhs => rw [heightB.hKVs]

theorem bounds_of_heightB_le {a b c d n : Nat} (h : 1 + max a (max b (max c d)) ≤ n + 1) :
    a ≤ n ∧ b ≤ n ∧ c ≤ n ∧ d ≤ n := by
  have ha : a ≤ max a (max b (max c d)) := le_max_left _ _
  have hb1 : b ≤ max b (max c d) := le_max_left _ _
  have hb2 : max b (max c d) ≤ max a (max b (max c d)) := le_max_right _ _
  have hc1 : c ≤ max c d := le_max_left _ _
  have hc2 : max c d ≤ max b (max c d) := le_max_right _ _
  have hd : d ≤ max c d := le_max_right _ _
  omega

theorem goKVs_nil (r : String) (cnt : Nat) : setTitleCore.goKVs r cnt [] = (cnt, []) := by
  conv_lhs => rw [setTitleCore.goKVs]

theorem goKVs_cons (r : String) (cnt : Nat) (k : String) (v : Schema)
    (rest : List (String × Schema)) :
    setTitleCore.goKVs r cnt ((k, v) :: rest) =
      ((setTitleCore.goKVs r
          (setTitleCore r cnt (if goName v.title v.id = "" then k else v.title) v).1 rest).1,
       (k, (setTitleCore r cnt (if goName v.title v.id = "" then k else v.title) v).2) ::
        (setTitleCore.goKVs r
          (setTitleCore r cnt (if goName v.title v.id = "" then k else v.title) v).1 rest).2) := by
  conv_lhs => rw [setTitleCore.goKVs]

theorem setTitleCore_mk (r : String) (cnt : Nat) (t t0 i d : String) (ty : SchemaType)
    (defs props pprops : List (String × Schema)) (ref : String) (it : Option Schema) :
    setTitleCore r cnt t (.mk t0 i ty d defs props pprops ref it) =
      (let p1 := setTitleCore.goKVs r cnt defs
       let p2 := setTitleCore.goKVs r p1.1 props
       let p3 := setTitleCore.goKVs r p2.1 pprops
       match it with
       | none => (p3.1, .mk t i ty d p1.2 p2.2 p3.2 ref none)
       | some item =>
         if goName item.title item.id = "" then
           let q :=
             if goName t i = "" then (p3.1 + 1, "AnonymousObject" ++ Nat.repr (p3.1 + 1))
             else (p3.1, t)
           let it2 := setTitleCore r q.1 (goName q.2 i ++ "Item") item
           (it2.1, .mk q.2 i ty d p1.2 p2.2 p3.2 ref (some it2.2))
         else
           let it2 := setTitleCore r p3.1 item.title item
           (it2.1, .mk t i ty d p1.2 p2.2 p3.2 ref (some it2.2))) := by
  conv_lhs => rw [setTitleCore]

theorem titledB_mk (t i d : String) (ty : SchemaType)
    (defs props pprops : List (String × Schema)) (ref : String) (it : Option Schema) :
    titledB (.mk t i ty d defs props pprops ref it) =
      (titledB.tKVs defs && titledB.tKVs props && titledB.tKVs pprops &&
        (match it with
         | none => true
         | some item => (goName item.title item.id != "") && titledB item)) := by
  rw [titledB.eq_def]

theorem tKVs_cons (k : String) (v : Schema) (rest : List (String × Schema)) :
    titledB.tKVs ((k, v) :: rest) =
      ((goName v.title v.id != "" || v.title == k) && titledB v && titledB.tKVs rest) := by
  conv_lhs => rw [titledB.tKVs]

theorem setTitleCore_id (r : String) (cnt : Nat) (t : String) (s : Schema) :
    (setTitleCore r cnt t s).2.id = s.id := by
  cases s with
  | mk t0 i ty d defs props pprops ref it =>
    rw [setTitleCore_mk]
    cases it with
    | none => rfl
    | some item =>
      by_cases h : goName item.title item.id = ""
      · by_cases h2 : goName t i = ""
        · simp only [if_pos h, if_pos h2]
          rfl
        · simp only [if_pos h, if_neg h2]
          rfl
      · simp only [if_neg h]
        rfl

theorem setTitleCore_title (r : String) (cnt : Nat) (t : String) (s : Schema) :
    (setTitleCore r cnt t s).2.title = t ∨
      (goName t s.id = "" ∧ (setTitleCore r cnt t s).2.title ≠ "") := by
  cases s with
  | mk t0 i ty d defs props pprops ref it =>
    rw [setTitleCore_mk]
    cases it with
    | none => left; rfl
    | some item =>
      by_cases h : goName item.title item.id = ""
      · by_cases h2 : goName t i = ""
        · right
          refine ⟨h2, ?_⟩
          simp only [if_pos h, if_pos h2]
          exact append_ne_empty_left _ _ (by decide)
        · left
          simp only [if_pos h, if_neg h2]
          rfl
      · left
        simp only [if_neg h]
        rfl

theorem title_mk (t i d : String) (ty : SchemaType)
    (defs props pprops : List (String × Schema)) (ref : String) (it : Option Schema) :
    (Schema.mk t i ty d defs props pprops ref it).title = t := rfl

theorem id_mk (t i d : String) (ty : SchemaType)
    (defs props pprops : List (String × Schema)) (ref : String) (it : Option Schema) :
    (Schema.mk t i ty d defs props pprops ref it).id = i := rfl

theorem and_eq_true_intro {a b : Bool} (ha : a = true) (hb : b = true) : (a && b) = true := by
  rw [ha, hb]
  rfl

theorem goName_ne_of_title_ne {a b : String} (ha : a ≠ "") : goName a b ≠ "" := by
  rw [goName, if_pos ha]
  exact ha

theorem goName_empty {a b : String} (h : goName a b = "") : a = "" ∧ b = "" := by
  by_cases ha : a ≠ ""
  · rw [goName, if_pos ha] at h
    exact absurd h ha
  · push_neg at ha
    rw [goName, if_neg (by simpa using ha)] at h
    exact ⟨ha, h⟩

theorem setTitleCore_title_ne (r : String) (cnt : Nat) {t : String} (s : Schema)
    (ht : t ≠ "") : (setTitleCore r cnt t s).2.title ≠ "" := by
  rcases setTitleCore_title r cnt t s with h1 | ⟨h2, h3⟩
  · rw [h1]
    exact ht
  · exact h3

theorem titledB_intro {s : Schema} (h1 : titledB.tKVs s.definitions = true)
    (h2 : titledB.tKVs s.properties = true) (h3 : titledB.tKVs s.patternProperties = true)
    (h4 : (match s.items with
           | none => true
           | some item => (goName item.title item.id != "") && titledB item) = true) :
    titledB s = true := by
  cases s with
  | mk t i ty d defs props pprops ref it =>
    rw [titledB_mk]
    exact and_eq_true_intro (and_eq_true_intro (and_eq_true_intro h1 h2) h3) h4

theorem goKVs_titled (r : String) (n : Nat)
    (ihS : ∀ (v : Schema) (cnt : Nat) (t : String), heightB v ≤ n →
      titledB (setTitleCore r cnt t v).2 = true) :
    ∀ (l : List (String × Schema)) (cnt : Nat), heightB.hKVs l ≤ n →
      titledB.tKVs (setTitleCore.goKVs r cnt l).2 = true := by
  intro l
  induction l with
  | nil =>
    intro cnt h
    rw [goKVs_nil]
    rfl
  | cons kv rest ihl =>
    obtain ⟨k, v⟩ := kv
    intro cnt h
    rw [hKVs_cons] at h
    have hv : heightB v ≤ n := le_trans (le_max_left _ _) h
    have hr : heightB.hKVs rest ≤ n := le_trans (le_max_right _ _) h
    rw [goKVs_cons, tKVs_cons]
    refine and_eq_true_intro (and_eq_true_intro ?_ (ihS v cnt _ hv)) (ihl _ hr)
    by_cases hn : goName v.title v.id = ""
    · rw [if_pos hn]
      rcases setTitleCore_title r cnt k v with h1 | ⟨h2, h3⟩
      · rw [h1]
        simp
      · have hne : goName (setTitleCore r cnt k v).2.title (setTitleCore r cnt k v).2.id ≠ "" :=
          goName_ne_of_title_ne h3
        simp [hne]
    · rw [if_neg hn]
      rcases setTitleCore_title r cnt v.title v with h1 | ⟨h2, h3⟩
      · have hid := setTitleCore_id r cnt v.title v
        have hgn : goName (setTitleCore r cnt v.title v).2.title
            (setTitleCore r cnt v.title v).2.id = goName v.title v.id := by
          rw [h1, hid]
        simp [hgn, hn]
      · exact absurd h2 hn

theorem titled_item_component (r : String) (cnt : Nat) (t2 : String) (item : Schema)
    (ht2 : t2 ≠ "") (hti : titledB (setTitleCore r cnt t2 item).2 = true) :
    ((goName (setTitleCore r cnt t2 item).2.title (setTitleCore r cnt t2 item).2.id != "") &&
      titledB (setTitleCore r cnt t2 item).2) = true := by
  refine and_eq_true_intro ?_ hti
  have htne := setTitleCore_title_ne r cnt item ht2
  have hne : goName (setTitleCore r cnt t2 item).2.title
      (setTitleCore r cnt t2 item).2.id ≠ "" := goName_ne_of_title_ne htne
  simpa using hne

theorem titled_item_component_named (r : String) (cnt : Nat) (item : Schema)
    (hnm : goName item.title item.id ≠ "")
    (hti : titledB (setTitleCore r cnt item.title item).2 = true) :
    ((goName (setTitleCore r cnt item.title item).2.title
        (setTitleCore r cnt item.title item).2.id != "") &&
      titledB (setTitleCore r cnt item.title item).2) = true := by
  refine and_eq_true_intro ?_ hti
  rcases setTitleCore_title r cnt item.title item with h1 | ⟨h2, h3⟩
  · have hid := setTitleCore_id r cnt item.title item
    have hgn : goName (setTitleCore r cnt item.title item).2.title
        (setTitleCore r cnt item.title item).2.id = goName item.title item.id := by
      rw [h1, hid]
    simp [hgn, hnm]
  · have hne : goName (setTitleCore r cnt item.title item).2.title
        (setTitleCore r cnt item.title item).2.id ≠ "" := goName_ne_of_title_ne h3
    simpa using hne

theorem setTitleCore_titled (r : String) :
    ∀ (n : Nat) (s : Schema) (cnt : Nat) (t : String), heightB s ≤ n →
      titledB (setTitleCore r cnt t s).2 = true := by
  intro n
  induction n with
  | zero =>
    intro s cnt t h
    cases s with
    | mk t0 i ty d defs props pprops ref it =>
      rw [heightB_mk] at h
      omega
  | succ n ih =>
    intro s cnt t h
    cases s with
    | mk t0 i ty d defs props pprops ref it =>
      rw [heightB_mk] at h
      obtain ⟨hdefs, hprops, hpprops, hit⟩ := bounds_of_heightB_le h
      rw [setTitleCore_mk]
      cases it with
      | none =>
        refine titledB_intro ?_ ?_ ?_ ?_
        · exact goKVs_titled r n ih defs cnt hdefs
        · exact goKVs_titled r n ih props _ hprops
        · exact goKVs_titled r n ih pprops _ hpprops
        · rfl
      | some item =>
        have hitem : heightB item ≤ n := hit
        by_cases hnm : goName item.title item.id = ""
        · simp only [if_pos hnm]
          by_cases ht0 : goName t i = ""
          · simp only [if_pos ht0]
            refine titledB_intro ?_ ?_ ?_ ?_
            · exact goKVs_titled r n ih defs cnt hdefs
            · exact goKVs_titled r n ih props _ hprops
            · exact goKVs_titled r n ih pprops _ hpprops
            · exact titled_item_component r _ _ item
                (append_ne_empty_right _ _ (by decide)) (ih item _ _ hitem)
          · simp only [if_neg ht0]
            refine titledB_intro ?_ ?_ ?_ ?_
            · exact goKVs_titled r n ih defs cnt hdefs
            · exact goKVs_titled r n ih props _ hprops
            · exact goKVs_titled r n ih pprops _ hpprops
            · exact titled_item_component r _ _ item
                (append_ne_empty_right _ _ (by decide)) (ih item _ _ hitem)
        · simp only [if_neg hnm]
          refine titledB_intro ?_ ?_ ?_ ?_
          · exact goKVs_titled r n ih defs cnt hdefs
          · exact goKVs_titled r n ih props _ hprops
          · exact goKVs_titled r n ih pprops _ hpprops
          · exact titled_item_component_named r _ item hnm (ih item _ _ hitem)

theorem goKVs_fix (r : String) (n : Nat)
    (ihS : ∀ (v : Schema) (cnt : Nat), heightB v ≤ n → titledB v = true →
      setTitleCore r cnt v.title v = (cnt, v)) :
    ∀ (l : List (String × Schema)) (cnt : Nat), heightB.hKVs l ≤ n →
      titledB.tKVs l = true → setTitleCore.goKVs r cnt l = (cnt, l) := by
  intro l
  induction l with
  | nil => intro cnt _ _; exact goKVs_nil r cnt
  | cons kv rest ihl =>
    obtain ⟨k, v⟩ := kv
    intro cnt h ht
    rw [hKVs_cons] at h
    rw [tKVs_cons, Bool.and_eq_true, Bool.and_eq_true] at ht
    obtain ⟨⟨hcond, htv⟩, hrest⟩ := ht
    have hv : heightB v ≤ n := le_trans (le_max_left _ _) h
    have hr : heightB.hKVs rest ≤ n := le_trans (le_max_right _ _) h
    have hvt : (if goName v.title v.id = "" then k else v.title) = v.title := by
      by_cases hn : goName v.title v.id = ""
      · rw [if_pos hn]
        rcases Bool.or_eq_true_iff.mp hcond with h1 | h2
      --  first disjunct contradicts hn
        · exact absurd (by simpa using h1) (by simpa using hn)
        · exact (by simpa using h2 : v.title = k).symm
      · rw [if_neg hn]
    rw [goKVs_cons, hvt, ihS v cnt hv htv]
    simp [ihl cnt hr hrest]

theorem setTitleCore_fix (r : String) :
    ∀ (n : Nat) (s : Schema) (cnt : Nat), heightB s ≤ n → titledB s = true →
      setTitleCore r cnt s.title s = (cnt, s) := by
  intro n
  induction n with
  | zero =>
    intro s cnt h _
    cases s with
    | mk t0 i ty d defs props pprops ref it =>
      rw [heightB_mk] at h
      omega
  | succ n ih =>
    intro s cnt h ht
    cases s with
    | mk t0 i ty d defs props pprops ref it =>
      rw [heightB_mk] at h
      obtain ⟨hdefs, hprops, hpprops, hit⟩ := bounds_of_heightB_le h
      rw [titledB_mk, Bool.and_eq_true, Bool.and_eq_true, Bool.and_eq_true] at ht
      obtain ⟨⟨⟨h1, h2⟩, h3⟩, h4⟩ := ht
      have ihS : ∀ (v : Schema) (cnt : Nat), heightB v ≤ n → titledB v = true →
          setTitleCore r cnt v.title v = (cnt, v) := fun v c hv htv => ih v c hv htv
      rw [title_mk, setTitleCore_mk]
      have e1 := goKVs_fix r n ihS defs cnt hdefs h1
      cases it with
      | none =>
        simp only [e1]
        have e2 := goKVs_fix r n ihS props cnt hprops h2
        simp only [e2]
        have e3 := goKVs_fix r n ihS pprops cnt hpprops h3
        simp only [e3]
      | some item =>
        have h4' : (goName item.title item.id != "") = true ∧ titledB item = true := by
          simpa [Bool.and_eq_true] using h4
        have hnm : ¬ goName item.title item.id = "" := by simpa using h4'.1
        have hitem : heightB item ≤ n := hit
        simp only [e1]
        have e2 := goKVs_fix r n ihS props cnt hprops h2
        simp only [e2]
        have e3 := goKVs_fix r n ihS pprops cnt hpprops h3
        simp only [e3, if_neg hnm]
        simp [ihS item cnt hitem h4'.2]

/-- C9: the name-assignment pass is idempotent.  Running `setTitle` a
second time on the output of a first run returns the tree and the
anonymous-object counter completely unchanged — in particular no node's
name changes and the counter is not advanced. -/
theorem setTitle_idempotent (cnt : Nat) (r : String) (s : Schema) :
    setTitle (setTitle cnt r s).1 r (setTitle cnt r s).2 = setTitle cnt r s := by
  unfold setTitle
  have hE := setTitleCore_titled r (heightB s) s cnt s.title le_rfl
  exact setTitleCore_fix r (heightB (setTitleCore r cnt s.title s).2)
    (setTitleCore r cnt s.title s).2 (setTitleCore r cnt s.title s).1 le_rfl hE

/-! ### C4: lexicographic field order and map-order independence -/

theorem type_mk (t i d : String) (ty : SchemaType)
    (defs props pprops : List (String × Schema)) (ref : String) (it : Option Schema) :
    (Schema.mk t i ty d defs props pprops ref it).type = ty := rfl

theorem properties_mk (t i d : String) (ty : SchemaType)
    (defs props pprops : List (String × Schema)) (ref : String) (it : Option Schema) :
    (Schema.mk t i ty d defs props pprops ref it).properties = props := rfl

theorem name_mk (t i d : String) (ty : SchemaType)
    (defs props pprops : List (String × Schema)) (ref : String) (it : Option Schema) :
    (Schema.mk t i ty d defs props pprops ref it).name = if t ≠ "" then t else i := rfl

theorem jKVs_eq_map (l : List (String × Schema)) :
    schemaJVal.jKVs l = l.map fun kv => (kv.1, schemaJVal kv.2) := by
  induction l with
  | nil => rw [schemaJVal.jKVs]; rfl
  | cons kv rest ih =>
    obtain ⟨k, v⟩ := kv
    rw [schemaJVal.jKVs, ih]
    rfl

theorem schemaJVal_mk (t i d : String) (ty : SchemaType)
    (defs props pprops : List (String × Schema)) (ref : String) (it : Option Schema) :
    schemaJVal (.mk t i ty d defs props pprops ref it) =
      .obj
        ((if t == "" then [] else [("title", JVal.str t)]) ++
         (if i == "" then [] else [("id", JVal.str i)]) ++
         (if ty = .ANY then [] else [("type", JVal.str (typeMarshal ty))]) ++
         (if d == "" then [] else [("description", JVal.str d)]) ++
         (if defs.isEmpty then []
          else [("definitions", JVal.obj (sortKeyed (schemaJVal.jKVs defs)))]) ++
         (if props.isEmpty then []
          else [("properties", JVal.obj (sortKeyed (schemaJVal.jKVs props)))]) ++
         (if pprops.isEmpty then []
          else [("patternProperties", JVal.obj (sortKeyed (schemaJVal.jKVs pprops)))]) ++
         (if ref == "" then [] else [("$ref", JVal.str ref)]) ++
         (match it with | none => [] | some item => [("items", schemaJVal item)])) := by
  rw [schemaJVal.eq_def]

theorem isEmpty_eq_of_perm {α : Type} {l₁ l₂ : List α} (h : l₁.Perm l₂) :
    l₁.isEmpty = l₂.isEmpty := by
  cases l₁ with
  | nil =>
    have : l₂ = [] := h.symm.eq_nil
    subst this
    rfl
  | cons x r =>
    cases l₂ with
    | nil => exact absurd h.eq_nil (by simp)
    | cons y s => rfl

theorem schemaJVal_props_perm (t i d ref : String) (ty : SchemaType)
    (defs pprops : List (String × Schema)) (it : Option Schema)
    {props₁ props₂ : List (String × Schema)} (hperm : props₁.Perm props₂)
    (hnd : (props₁.map Prod.fst).Nodup) :
    schemaJVal (.mk t i ty d defs props₁ pprops ref it) =
      schemaJVal (.mk t i ty d defs props₂ pprops ref it) := by
  rw [schemaJVal_mk, schemaJVal_mk]
  have hsort : sortKeyed (schemaJVal.jKVs props₁) = sortKeyed (schemaJVal.jKVs props₂) := by
    rw [jKVs_eq_map, jKVs_eq_map]
    refine sortKeyed_eq_of_perm (hperm.map _) ?_
    have : (props₁.map fun kv => (kv.1, schemaJVal kv.2)).map Prod.fst = props₁.map Prod.fst := by
      rw [List.map_map]
      rfl
    rw [this]
    exact hnd
  rw [hsort, isEmpty_eq_of_perm hperm]

theorem structComment_props_perm (p : Proc) (tn t i d ref : String) (ty : SchemaType)
    (defs pprops : List (String × Schema)) (it : Option Schema)
    {props₁ props₂ : List (String × Schema)} (hperm : props₁.Perm props₂)
    (hnd : (props₁.map Prod.fst).Nodup) :
    structComment p (.mk t i ty d defs props₁ pprops ref it) tn =
      structComment p (.mk t i ty d defs props₂ pprops ref it) tn := by
  unfold structComment
  rw [schemaJVal_props_perm t i d ref ty defs pprops it hperm hnd]

theorem processSchema_object_props (fuel : Nat) (p : Proc) (s : Schema)
    (hty : s.type = .OBJECT) (hne : s.properties.isEmpty = false) :
    processSchema (fuel + 1) p s = (do
      let (typeData, p₁) ← (sortStrings (s.properties.map Prod.fst)).foldlM
        (fun (acc : String × Proc) k =>
          match lookupS s.properties k with
          | none => .error .crash
          | some v => do
            let (subTypeName, p') ← processSchema fuel acc.2 v
            pure (acc.1 ++ "    " ++ camelCase k ++ " " ++ subTypeName ++
                  " `json:\"" ++ k ++ ",omitempty\" yaml:\"" ++ k ++ ",omitempty\"`\n", p'))
        (structComment p s (camelCase s.name) ++ "type " ++ camelCase s.name ++
          " struct \x7b\n", p)
      let typeData := typeData ++ "\x7d\n\n"
      pure ("*" ++ camelCase s.name, writeGoCode p₁ (camelCase s.name) typeData)) := by
  rw [processSchema]
  simp only [hty, hne]
  rfl

/-- C4: for an object node with properties, the synthesized declaration is
a deterministic function of the set of `(key, schema)` pairs: permuting the
property association list (the model of Go's unspecified map iteration
order) changes neither the returned type reference, nor the emitted
declaration text (whose fields follow the lexicographically sorted key
order via `sortStrings`), nor the processor state. -/
theorem processSchema_props_perm (fuel : Nat) (p : Proc) (t i d ref : String)
    (defs pprops : List (String × Schema)) (it : Option Schema)
    (props₁ props₂ : List (String × Schema)) (hperm : props₁.Perm props₂)
    (hnd : (props₁.map Prod.fst).Nodup) :
    processSchema fuel p (.mk t i .OBJECT d defs props₁ pprops ref it) =
      processSchema fuel p (.mk t i .OBJECT d defs props₂ pprops ref it) := by
  cases fuel with
  | zero => rfl
  | succ fuel =>
    by_cases hq : props₁ = []
    · subst hq
      have h2 : props₂ = [] := hperm.symm.eq_nil
      subst h2
      rfl
    · have hq₂ : props₂ ≠ [] := fun h => hq (List.Perm.eq_nil (h ▸ hperm))
      have hne₁ : props₁.isEmpty = false := by
        cases props₁ with
        | nil => exact absurd rfl hq
        | cons x r => rfl
      have hne₂ : props₂.isEmpty = false := by
        cases props₂ with
        | nil => exact absurd rfl hq₂
        | cons x r => rfl
      rw [processSchema_object_props fuel p _ (type_mk ..) (by rw [properties_mk]; exact hne₁),
          processSchema_object_props fuel p _ (type_mk ..) (by rw [properties_mk]; exact hne₂)]
      rw [properties_mk, properties_mk, name_mk, name_mk]
      have hkeys : sortStrings (props₁.map Prod.fst) = sortStrings (props₂.map Prod.fst) :=
        sortStrings_eq_of_perm (hperm.map Prod.fst)
      have hlook : ∀ k, lookupS props₁ k = lookupS props₂ k :=
        lookupS_eq_of_perm hperm hnd
      have hf : (fun (acc : String × Proc) k =>
          match lookupS props₁ k with
          | none => (.error .crash : Except Err (String × Proc))
          | some v => do
            let (subTypeName, p') ← processSchema fuel acc.2 v
            pure (acc.1 ++ "    " ++ camelCase k ++ " " ++ subTypeName ++
                  " `json:\"" ++ k ++ ",omitempty\" yaml:\"" ++ k ++ ",omitempty\"`\n", p')) =
          (fun (acc : String × Proc) k =>
          match lookupS props₂ k with
          | none => (.error .crash : Except Err (String × Proc))
          | some v => do
            let (subTypeName, p') ← processSchema fuel acc.2 v
            pure (acc.1 ++ "    " ++ camelCase k ++ " " ++ subTypeName ++
                  " `json:\"" ++ k ++ ",omitempty\" yaml:\"" ++ k ++ ",omitempty\"`\n", p')) := by
        funext acc k
        rw [hlook k]
      have hsc := structComment_props_perm p (camelCase (if t ≠ "" then t else i))
        t i d ref .OBJECT defs pprops it hperm hnd
      rw [hkeys, hf, hsc]

/-- C4 witness: a concrete two-field object where the two input orders of
the property map give identical output. -/
theorem processSchema_props_perm_witness :
    processSchema 5 ⟨false, [], []⟩
      (.mk "widget" "" .OBJECT "" []
        [("id", .mk "" "" .STRING "" [] [] [] "" none),
         ("count", .mk "" "" .INTEGER "" [] [] [] "" none)] [] "" none) =
      processSchema 5 ⟨false, [], []⟩
        (.mk "widget" "" .OBJECT "" []
          [("count", .mk "" "" .INTEGER "" [] [] [] "" none),
           ("id", .mk "" "" .STRING "" [] [] [] "" none)] [] "" none) :=
  processSchema_props_perm 5 ⟨false, [], []⟩ "widget" "" "" "" [] [] none
    [("id", .mk "" "" .STRING "" [] [] [] "" none),
     ("count", .mk "" "" .INTEGER "" [] [] [] "" none)]
    [("count", .mk "" "" .INTEGER "" [] [] [] "" none),
     ("id", .mk "" "" .STRING "" [] [] [] "" none)]
    (List.Perm.swap _ _ _) (by decide)

theorem except_bind_ok {α β : Type} {m : Except Err α} {f : α → Except Err β} {b : β}
    (h : (m >>= f) = .ok b) : ∃ a, m = .ok a ∧ f a = .ok b := by
  cases m with
  | error e => exact Except.noConfusion h
  | ok a => exact ⟨a, rfl, h⟩

theorem except_pure_ok {α : Type} {x y : α} (h : (pure x : Except Err α) = .ok y) : x = y :=
  Except.ok.inj h

theorem except_fst_cases {m₁ m₂ : Except Err (String × Proc)}
    (h : m₁.map Prod.fst = m₂.map Prod.fst) :
    (∃ e, m₁ = .error e ∧ m₂ = .error e) ∨
      (∃ a b, m₁ = .ok a ∧ m₂ = .ok b ∧ a.1 = b.1) := by
  cases m₁ with
  | error e₁ =>
    cases m₂ with
    | error e₂ =>
      simp only [Except.map] at h
      injection h with h'
      exact Or.inl ⟨e₁, rfl, by rw [h']⟩
    | ok b =>
      simp only [Except.map] at h
      exact Except.noConfusion h
  | ok a =>
    cases m₂ with
    | error e₂ =>
      simp only [Except.map] at h
      exact Except.noConfusion h
    | ok b =>
      simp only [Except.map] at h
      injection h with h'
      exact Or.inr ⟨a, b, rfl, rfl, h'⟩

theorem except_unit_cases {m₁ m₂ : Except Err (String × Proc)}
    (h : m₁.map (fun _ => ()) = m₂.map (fun _ => ())) :
    (∃ e, m₁ = .error e ∧ m₂ = .error e) ∨
      (∃ a b, m₁ = .ok a ∧ m₂ = .ok b) := by
  cases m₁ with
  | error e₁ =>
    cases m₂ with
    | error e₂ =>
      simp only [Except.map] at h
      injection h with h'
      exact Or.inl ⟨e₁, rfl, by rw [h']⟩
    | ok b =>
      simp only [Except.map] at h
      exact Except.noConfusion h
  | ok a =>
    cases m₂ with
    | error e₂ =>
      simp only [Except.map] at h
      exact Except.noConfusion h
    | ok b =>
      exact Or.inr ⟨a, b, rfl, rfl⟩

theorem isEmpty_false_of_ne_nil {α : Type} {l : List α} (h : l ≠ []) :
    l.isEmpty = false := by
  cases l with
  | nil => exact absurd rfl h
  | cons a r => rfl

theorem patternProperties_mk (t i d : String) (ty : SchemaType)
    (defs props pprops : List (String × Schema)) (ref : String) (it : Option Schema) :
    (Schema.mk t i ty d defs props pprops ref it).patternProperties = pprops := rfl

theorem items_mk (t i d : String) (ty : SchemaType)
    (defs props pprops : List (String × Schema)) (ref : String) (it : Option Schema) :
    (Schema.mk t i ty d defs props pprops ref it).items = it := rfl

theorem processSchema_props_eq (fuel : Nat) (p : Proc) (s : Schema)
    (hty : s.type = .OBJECT) (hne : s.properties.isEmpty = false) :
    processSchema (fuel + 1) p s = (do
      let (typeData, p₁) ← (sortStrings (s.properties.map Prod.fst)).foldlM
        (objStep fuel s.properties)
        (structComment p s (camelCase s.name) ++ "type " ++ camelCase s.name ++
          " struct \x7b\n", p)
      pure ("*" ++ camelCase s.name,
        writeGoCode p₁ (camelCase s.name) (typeData ++ "\x7d\n\n"))) := by
  rw [processSchema]
  simp only [hty, hne]
  rfl

theorem processSchema_patterns_eq (fuel : Nat) (p : Proc) (s : Schema)
    (hty : s.type = .OBJECT) (hpe : s.properties.isEmpty = true)
    (hppne : s.patternProperties.isEmpty = false) :
    processSchema (fuel + 1) p s =
      (sortStrings (s.patternProperties.map Prod.fst)).foldlM
        (patternStep fuel s) (camelCase s.name, p) := by
  rw [processSchema]
  simp only [hty, hpe, hppne]
  rfl

theorem processSchema_object_inline_eq (fuel : Nat) (p : Proc) (s : Schema)
    (hty : s.type = .OBJECT) (hpe : s.properties.isEmpty = true)
    (hppe : s.patternProperties.isEmpty = true) :
    processSchema (fuel + 1) p s = .ok ("map[string]interface\x7b\x7d", p) := by
  rw [processSchema]
  simp only [hty, hpe, hppe]
  rfl

theorem processSchema_array_none_eq (fuel : Nat) (p : Proc) (s : Schema)
    (hty : s.type = .ARRAY) (hit : s.items = none) :
    processSchema (fuel + 1) p s = .error .crash := by
  rw [processSchema]
  simp only [hty, hit]
  rfl

theorem processSchema_array_some_eq (fuel : Nat) (p : Proc) (s : Schema) (item : Schema)
    (hty : s.type = .ARRAY) (hit : s.items = some item) :
    processSchema (fuel + 1) p s = processSchema fuel p item >>= arrayFinish s := by
  rw [processSchema]
  simp only [hty, hit]
  rfl

theorem processSchema_bool_eq (fuel : Nat) (p : Proc) (s : Schema)
    (hty : s.type = .BOOLEAN) : processSchema (fuel + 1) p s = .ok ("bool", p) := by
  rw [processSchema]
  simp only [hty]
  rfl

theorem processSchema_int_eq (fuel : Nat) (p : Proc) (s : Schema)
    (hty : s.type = .INTEGER) : processSchema (fuel + 1) p s = .ok ("int", p) := by
  rw [processSchema]
  simp only [hty]
  rfl

theorem processSchema_num_eq (fuel : Nat) (p : Proc) (s : Schema)
    (hty : s.type = .NUMBER) : processSchema (fuel + 1) p s = .ok ("float64", p) := by
  rw [processSchema]
  simp only [hty]
  rfl

theorem processSchema_null_eq (fuel : Nat) (p : Proc) (s : Schema)
    (hty : s.type = .NULL) :
    processSchema (fuel + 1) p s = .ok ("interface\x7b\x7d", p) := by
  rw [processSchema]
  simp only [hty]
  rfl

theorem processSchema_any_eq (fuel : Nat) (p : Proc) (s : Schema)
    (hty : s.type = .ANY) :
    processSchema (fuel + 1) p s = .ok ("interface\x7b\x7d", p) := by
  rw [processSchema]
  simp only [hty]
  rfl

theorem processSchema_string_eq (fuel : Nat) (p : Proc) (s : Schema)
    (hty : s.type = .STRING) : processSchema (fuel + 1) p s = .ok ("string", p) := by
  rw [processSchema]
  simp only [hty]
  rfl

theorem writeGoCode_processed_mono (p : Proc) (n c : String) :
    p.processed ⊆ (writeGoCode p n c).processed := by
  unfold writeGoCode
  cases hb : p.processed.contains n with
  | true => exact List.Subset.refl _
  | false => exact List.subset_cons_self _ _

theorem writeGoCode_mem (p : Proc) (n c : String) : n ∈ (writeGoCode p n c).processed := by
  unfold writeGoCode
  cases hb : p.processed.contains n with
  | true => exact contains_iff_mem.mp hb
  | false => exact List.mem_cons_self _ _

theorem sortStrings_ne_nil {l : List String} (h : l ≠ []) : sortStrings l ≠ [] := by
  intro hc
  have hp := sortStrings_perm l
  rw [hc] at hp
  exact h hp.symm.eq_nil

theorem except_ok_bind {α β : Type} (a : α) (f : α → Except Err β) :
    (Except.ok a >>= f) = f a := rfl

theorem objFold_unit_si (fuel : Nat)
    (ih : ∀ (v : Schema) (p q : Proc),
      (processSchema fuel p v).map Prod.fst = (processSchema fuel q v).map Prod.fst)
    (props : List (String × Schema)) (ks : List String) :
    ∀ (a₁ a₂ : String × Proc),
      (ks.foldlM (objStep fuel props) a₁).map (fun _ => ()) =
        (ks.foldlM (objStep fuel props) a₂).map (fun _ => ()) := by
  induction ks with
  | nil => intro a₁ a₂; rfl
  | cons k ks ihk =>
    intro a₁ a₂
    simp only [List.foldlM_cons]
    unfold objStep
    cases hlook : lookupS props k with
    | none => rfl
    | some v =>
      dsimp only
      rcases except_fst_cases (ih v a₁.2 a₂.2) with ⟨e, h1, h2⟩ | ⟨x, y, h1, h2, hfst⟩
      · rw [h1, h2]
        rfl
      · obtain ⟨x1, x2⟩ := x
        obtain ⟨y1, y2⟩ := y
        rw [h1, h2]
        simp only [except_ok_bind]
        exact ihk _ _

theorem patFold_fst_si (fuel : Nat)
    (ih : ∀ (v : Schema) (p q : Proc),
      (processSchema fuel p v).map Prod.fst = (processSchema fuel q v).map Prod.fst)
    (schema : Schema) (ks : List String) :
    ∀ (tn : String) (p q : Proc),
      (ks.foldlM (patternStep fuel schema) (tn, p)).map Prod.fst =
        (ks.foldlM (patternStep fuel schema) (tn, q)).map Prod.fst := by
  induction ks with
  | nil => intro tn p q; rfl
  | cons k ks ihk =>
    intro tn p q
    simp only [List.foldlM_cons]
    unfold patternStep
    cases hlook : lookupS schema.patternProperties k with
    | none => rfl
    | some v =>
      dsimp only
      rcases except_fst_cases (ih v p q) with ⟨e, h1, h2⟩ | ⟨x, y, h1, h2, hfst⟩
      · rw [h1, h2]
      · obtain ⟨x1, x2⟩ := x
        obtain ⟨y1, y2⟩ := y
        obtain rfl : x1 = y1 := hfst
        rw [h1, h2]
        simp only [except_ok_bind]
        cases hcap : (goTitle x1 == x1) with
        | true => exact ihk _ _ _
        | false => exact ihk _ _ _

theorem arrayFinish_fst (schema : Schema) (sub : String) (p₁ q₁ : Proc) :
    (arrayFinish schema (sub, p₁)).map Prod.fst =
      (arrayFinish schema (sub, q₁)).map Prod.fst := by
  unfold arrayFinish
  dsimp only
  split_ifs <;> rfl

theorem processSchema_fst_si (fuel : Nat) :
    ∀ (v : Schema) (p q : Proc),
      (processSchema fuel p v).map Prod.fst = (processSchema fuel q v).map Prod.fst := by
  induction fuel with
  | zero => intro v p q; rfl
  | succ fuel ih =>
    intro v p q
    cases hty : v.type with
    | OBJECT =>
      cases hpe : v.properties.isEmpty with
      | false =>
        rw [processSchema_props_eq fuel p v hty hpe, processSchema_props_eq fuel q v hty hpe]
        rcases except_unit_cases
            (objFold_unit_si fuel ih v.properties (sortStrings (v.properties.map Prod.fst))
              (structComment p v (camelCase v.name) ++ "type " ++ camelCase v.name ++
                " struct \x7b\n", p)
              (structComment q v (camelCase v.name) ++ "type " ++ camelCase v.name ++
                " struct \x7b\n", q))
          with ⟨e, h1, h2⟩ | ⟨x, y, h1, h2⟩
        · rw [h1, h2]
        · obtain ⟨x1, x2⟩ := x
          obtain ⟨y1, y2⟩ := y
          rw [h1, h2]
          rfl
      | true =>
        cases hppe : v.patternProperties.isEmpty with
        | true =>
          rw [processSchema_object_inline_eq fuel p v hty hpe hppe,
              processSchema_object_inline_eq fuel q v hty hpe hppe]
          rfl
        | false =>
          rw [processSchema_patterns_eq fuel p v hty hpe hppe,
              processSchema_patterns_eq fuel q v hty hpe hppe]
          exact patFold_fst_si fuel ih v _ _ p q
    | ARRAY =>
      cases hit : v.items with
      | none =>
        rw [processSchema_array_none_eq fuel p v hty hit,
            processSchema_array_none_eq fuel q v hty hit]
      | some item =>
        rw [processSchema_array_some_eq fuel p v item hty hit,
            processSchema_array_some_eq fuel q v item hty hit]
        rcases except_fst_cases (ih item p q) with ⟨e, h1, h2⟩ | ⟨x, y, h1, h2, hfst⟩
        · rw [h1, h2]
        · obtain ⟨x1, x2⟩ := x
          obtain ⟨y1, y2⟩ := y
          obtain rfl : x1 = y1 := hfst
          rw [h1, h2]
          simp only [except_ok_bind]
          exact arrayFinish_fst v x1 x2 y2
    | BOOLEAN =>
      rw [processSchema_bool_eq fuel p v hty, processSchema_bool_eq fuel q v hty]
      rfl
    | INTEGER =>
      rw [processSchema_int_eq fuel p v hty, processSchema_int_eq fuel q v hty]
      rfl
    | NUMBER =>
      rw [processSchema_num_eq fuel p v hty, processSchema_num_eq fuel q v hty]
      rfl
    | NULL =>
      rw [processSchema_null_eq fuel p v hty, processSchema_null_eq fuel q v hty]
      rfl
    | ANY =>
      rw [processSchema_any_eq fuel p v hty, processSchema_any_eq fuel q v hty]
      rfl
    | STRING =>
      rw [processSchema_string_eq fuel p v hty, processSchema_string_eq fuel q v hty]
      rfl

theorem objFold_mono (fuel : Nat) (props : List (String × Schema))
    (ih : ∀ (v : Schema) (p : Proc) (r : String) (p' : Proc),
      processSchema fuel p v = .ok (r, p') → p.processed ⊆ p'.processed)
    (ks : List String) :
    ∀ (a b : String × Proc), ks.foldlM (objStep fuel props) a = .ok b →
      a.2.processed ⊆ b.2.processed := by
  induction ks with
  | nil =>
    intro a b h
    have h2 := except_pure_ok h
    rw [← h2]
    exact List.Subset.refl _
  | cons k ks ihk =>
    intro a b h
    rw [List.foldlM_cons] at h
    obtain ⟨a', hstep, hrest⟩ := except_bind_ok h
    refine List.Subset.trans ?_ (ihk a' b hrest)
    unfold objStep at hstep
    cases hlook : lookupS props k with
    | none =>
      rw [hlook] at hstep
      exact Except.noConfusion hstep
    | some v =>
      rw [hlook] at hstep
      obtain ⟨x, hrec, hpure⟩ := except_bind_ok hstep
      obtain ⟨sub, p₁⟩ := x
      have h2 := except_pure_ok hpure
      have h1 := ih v a.2 sub p₁ hrec
      rw [← h2]
      exact h1

theorem patFold_mono (fuel : Nat) (schema : Schema)
    (ih : ∀ (v : Schema) (p : Proc) (r : String) (p' : Proc),
      processSchema fuel p v = .ok (r, p') → p.processed ⊆ p'.processed)
    (ks : List String) :
    ∀ (a b : String × Proc), ks.foldlM (patternStep fuel schema) a = .ok b →
      a.2.processed ⊆ b.2.processed := by
  induction ks with
  | nil =>
    intro a b h
    have h2 := except_pure_ok h
    rw [← h2]
    exact List.Subset.refl _
  | cons k ks ihk =>
    intro a b h
    rw [List.foldlM_cons] at h
    obtain ⟨a', hstep, hrest⟩ := except_bind_ok h
    refine List.Subset.trans ?_ (ihk a' b hrest)
    unfold patternStep at hstep
    cases hlook : lookupS schema.patternProperties k with
    | none =>
      rw [hlook] at hstep
      exact Except.noConfusion hstep
    | some v =>
      rw [hlook] at hstep
      obtain ⟨x, hrec, hfin⟩ := except_bind_ok hstep
      obtain ⟨sub, p₁⟩ := x
      dsimp only at hfin
      have h1 := ih v a.2 sub p₁ hrec
      cases hcap : (goTitle sub == sub) with
      | true =>
        rw [hcap] at hfin
        have h2 := except_pure_ok hfin
        rw [← h2]
        exact h1.trans (writeGoCode_processed_mono p₁ _ _)
      | false =>
        rw [hcap] at hfin
        have h2 := except_pure_ok hfin
        rw [← h2]
        exact h1

theorem processSchema_processed_mono (fuel : Nat) :
    ∀ (v : Schema) (p : Proc) (r : String) (p' : Proc),
      processSchema fuel p v = .ok (r, p') → p.processed ⊆ p'.processed := by
  induction fuel with
  | zero => intro v p r p' h; exact Except.noConfusion h
  | succ fuel ih =>
    intro v p r p' h
    cases hty : v.type with
    | OBJECT =>
      cases hpe : v.properties.isEmpty with
      | false =>
        rw [processSchema_props_eq fuel p v hty hpe] at h
        obtain ⟨x, hfold, hpure⟩ := except_bind_ok h
        obtain ⟨td, p₁⟩ := x
        have h1 : p.processed ⊆ p₁.processed :=
          objFold_mono fuel v.properties ih _ _ _ hfold
        have h2 := except_pure_ok hpure
        injection h2 with h2a h2b
        rw [← h2b]
        exact h1.trans (writeGoCode_processed_mono p₁ _ _)
      | true =>
        cases hppe : v.patternProperties.isEmpty with
        | true =>
          rw [processSchema_object_inline_eq fuel p v hty hpe hppe] at h
          have h2 := Except.ok.inj h
          injection h2 with h2a h2b
          rw [← h2b]
          exact List.Subset.refl _
        | false =>
          rw [processSchema_patterns_eq fuel p v hty hpe hppe] at h
          exact patFold_mono fuel v ih _ _ _ h
    | ARRAY =>
      cases hit : v.items with
      | none =>
        rw [processSchema_array_none_eq fuel p v hty hit] at h
        exact Except.noConfusion h
      | some item =>
        rw [processSchema_array_some_eq fuel p v item hty hit] at h
        obtain ⟨x, hrec, hfin⟩ := except_bind_ok h
        obtain ⟨sub, p₁⟩ := x
        have h1 : p.processed ⊆ p₁.processed := ih item p sub p₁ hrec
        refine h1.trans ?_
        unfold arrayFinish at hfin
        dsimp only at hfin
        split_ifs at hfin
        all_goals
          have h2 := except_pure_ok hfin
          injection h2 with h2a h2b
          rw [← h2b]
          first
          | exact writeGoCode_processed_mono p₁ _ _
          | exact List.Subset.refl _
    | BOOLEAN =>
      rw [processSchema_bool_eq fuel p v hty] at h
      have h2 := Except.ok.inj h
      injection h2 with h2a h2b
      rw [← h2b]
      exact List.Subset.refl _
    | INTEGER =>
      rw [processSchema_int_eq fuel p v hty] at h
      have h2 := Except.ok.inj h
      injection h2 with h2a h2b
      rw [← h2b]
      exact List.Subset.refl _
    | NUMBER =>
      rw [processSchema_num_eq fuel p v hty] at h
      have h2 := Except.ok.inj h
      injection h2 with h2a h2b
      rw [← h2b]
      exact List.Subset.refl _
    | NULL =>
      rw [processSchema_null_eq fuel p v hty] at h
      have h2 := Except.ok.inj h
      injection h2 with h2a h2b
      rw [← h2b]
      exact List.Subset.refl _
    | ANY =>
      rw [processSchema_any_eq fuel p v hty] at h
      have h2 := Except.ok.inj h
      injection h2 with h2a h2b
      rw [← h2b]
      exact List.Subset.refl _
    | STRING =>
      rw [processSchema_string_eq fuel p v hty] at h
      have h2 := Except.ok.inj h
      injection h2 with h2a h2b
      rw [← h2b]
      exact List.Subset.refl _

theorem patternStep_ok (fuel : Nat) (schema : Schema) (a : String × Proc) (k : String)
    (b : String × Proc) (h : patternStep fuel schema a k = .ok b) :
    ∃ v sub p₁, lookupS schema.patternProperties k = some v ∧
      processSchema fuel a.2 v = .ok (sub, p₁) ∧
      (((goTitle sub == sub) = true ∧
          b = (dropStar (sub ++ "Map"),
            writeGoCode p₁ (dropStar (sub ++ "Map"))
              (structComment p₁ schema (dropStar (sub ++ "Map")) ++ "type " ++
                dropStar (sub ++ "Map") ++ " map[string]" ++ sub ++ "\n\n"))) ∨
        ((goTitle sub == sub) = false ∧ b = ("map[string]" ++ sub, p₁))) := by
  unfold patternStep at h
  cases hlook : lookupS schema.patternProperties k with
  | none =>
    rw [hlook] at h
    exact Except.noConfusion h
  | some v =>
    rw [hlook] at h
    obtain ⟨x, hrec, hfin⟩ := except_bind_ok h
    obtain ⟨sub, p₁⟩ := x
    dsimp only at hfin
    refine ⟨v, sub, p₁, rfl, hrec, ?_⟩
    cases hcap : (goTitle sub == sub) with
    | true =>
      rw [hcap] at hfin
      exact Or.inl ⟨rfl, (except_pure_ok hfin).symm⟩
    | false =>
      rw [hcap] at hfin
      exact Or.inr ⟨rfl, (except_pure_ok hfin).symm⟩

theorem patFold_append (fuel : Nat) (schema : Schema) (ks₁ ks₂ : List String)
    (a b : String × Proc)
    (h : (ks₁ ++ ks₂).foldlM (patternStep fuel schema) a = .ok b) :
    ∃ a', ks₁.foldlM (patternStep fuel schema) a = .ok a' ∧
      ks₂.foldlM (patternStep fuel schema) a' = .ok b := by
  rw [List.foldlM_append] at h
  exact except_bind_ok h

theorem processSchema_fst_transfer (fuel : Nat) (v : Schema) (p q : Proc)
    (sub : String) (p₁ : Proc) (h : processSchema fuel q v = .ok (sub, p₁)) :
    ∃ p₂, processSchema fuel p v = .ok (sub, p₂) := by
  rcases except_fst_cases (processSchema_fst_si fuel v p q) with ⟨e, h1, h2⟩ | ⟨x, y, h1, h2, hfst⟩
  · rw [h] at h2
    exact Except.noConfusion h2
  · rw [h] at h2
    obtain ⟨x1, x2⟩ := x
    have hy := Except.ok.inj h2
    rw [← hy] at hfst
    have hx1 : x1 = sub := hfst
    refine ⟨x2, ?_⟩
    rw [h1, hx1]

/-- C10: for an object node with no properties and a non-empty
patternProperties map (here with at least two patterns), `processSchema`
(1) iterates over the pattern keys in lexicographically sorted order
(`sortStrings`), one `patternStep` per pattern; (2) the type reference it
returns to the caller is determined by the lexicographically greatest
pattern's value schema alone: synthesizing that value schema from the
initial processor state already yields the sub-type name `sub`, and the
returned reference is `<sub>Map` (star-stripped) when `sub` is capitalized
and the inline `map[string]<sub>` otherwise; and (3) for every pattern
whose value schema synthesizes to a capitalized (named) type, the
corresponding `<ValueType>Map` declaration name is recorded in the final
processed-type cache. -/
theorem processSchema_patternProperties (fuel : Nat) (p : Proc) (t i d ref : String)
    (defs pprops : List (String × Schema)) (it : Option Schema)
    (hnd : (pprops.map Prod.fst).Nodup) (hlen : 2 ≤ pprops.length)
    (nm : String) (p' : Proc)
    (hrun : processSchema (fuel + 1) p (.mk t i .OBJECT d defs [] pprops ref it) =
      .ok (nm, p')) :
    (processSchema (fuel + 1) p (.mk t i .OBJECT d defs [] pprops ref it) =
      (sortStrings (pprops.map Prod.fst)).foldlM
        (patternStep fuel (.mk t i .OBJECT d defs [] pprops ref it))
        (camelCase (if t ≠ "" then t else i), p)) ∧
    (∃ kmax vmax sub p₂,
      (sortStrings (pprops.map Prod.fst)).getLast? = some kmax ∧
      lookupS pprops kmax = some vmax ∧
      processSchema fuel p vmax = .ok (sub, p₂) ∧
      nm = if goTitle sub == sub then dropStar (sub ++ "Map")
           else "map[string]" ++ sub) ∧
    (∀ k, k ∈ pprops.map Prod.fst → ∀ (v : Schema) (sub : String) (q : Proc),
      lookupS pprops k = some v →
      processSchema fuel p v = .ok (sub, q) →
      (goTitle sub == sub) = true →
      dropStar (sub ++ "Map") ∈ p'.processed) := by
  have hppne : pprops ≠ [] := by
    intro hc
    rw [hc] at hlen
    exact absurd hlen (by decide)
  have hppef : (Schema.mk t i .OBJECT d defs [] pprops ref it).patternProperties.isEmpty
      = false := by
    rw [patternProperties_mk]
    exact isEmpty_false_of_ne_nil hppne
  have heq := processSchema_patterns_eq fuel p (.mk t i .OBJECT d defs [] pprops ref it)
    (type_mk ..) rfl hppef
  rw [patternProperties_mk, name_mk] at heq
  have hfold : (sortStrings (pprops.map Prod.fst)).foldlM
      (patternStep fuel (.mk t i .OBJECT d defs [] pprops ref it))
      (camelCase (if t ≠ "" then t else i), p) = .ok (nm, p') := by
    rw [← heq]
    exact hrun
  have hkne : sortStrings (pprops.map Prod.fst) ≠ [] :=
    sortStrings_ne_nil (fun hc => hppne (List.map_eq_nil_iff.mp hc))
  refine ⟨heq, ?_, ?_⟩
  · have hfoldA := hfold
    rw [← List.dropLast_append_getLast hkne] at hfoldA
    obtain ⟨a', hfold₁, hlast⟩ := patFold_append fuel
      (.mk t i .OBJECT d defs [] pprops ref it) _ _ _ _ hfoldA
    rw [List.foldlM_cons] at hlast
    obtain ⟨b', hstep, hpure'⟩ := except_bind_ok hlast
    have hb : b' = (nm, p') := except_pure_ok hpure'
    subst hb
    obtain ⟨vmax, sub, p₂', hlook, hrec, hbr⟩ := patternStep_ok fuel
      (.mk t i .OBJECT d defs [] pprops ref it) a'
      ((sortStrings (pprops.map Prod.fst)).getLast hkne) (nm, p') hstep
    obtain ⟨p₂, hrec₀⟩ := processSchema_fst_transfer fuel vmax p a'.2 sub p₂' hrec
    have hnm : nm = if goTitle sub == sub then dropStar (sub ++ "Map")
        else "map[string]" ++ sub := by
      rcases hbr with ⟨hcap, hbv⟩ | ⟨hcap, hbv⟩
      · rw [hcap]
        exact congrArg Prod.fst hbv
      · rw [hcap]
        exact congrArg Prod.fst hbv
    rw [patternProperties_mk] at hlook
    exact ⟨(sortStrings (pprops.map Prod.fst)).getLast hkne, vmax, sub, p₂,
      List.getLast?_eq_getLast _ hkne, hlook, hrec₀, hnm⟩
  · intro k hk v sub₀ q hlookk hrecp hcap
    have hk' : k ∈ sortStrings (pprops.map Prod.fst) :=
      (sortStrings_perm _).mem_iff.mpr hk
    obtain ⟨l₁, l₂, hkdec⟩ := List.append_of_mem hk'
    have hfoldB := hfold
    rw [hkdec] at hfoldB
    obtain ⟨a₁, hf₁, hrest⟩ := patFold_append fuel
      (.mk t i .OBJECT d defs [] pprops ref it) l₁ (k :: l₂) _ _ hfoldB
    rw [List.foldlM_cons] at hrest
    obtain ⟨a₂, hstep, hrest₂⟩ := except_bind_ok hrest
    obtain ⟨v', sub₂, p₃, hlook', hrec', hbr'⟩ := patternStep_ok fuel
      (.mk t i .OBJECT d defs [] pprops ref it) a₁ k a₂ hstep
    rw [patternProperties_mk, hlookk] at hlook'
    have hv : v' = v := (Option.some.inj hlook').symm
    subst hv
    have hsub : sub₀ = sub₂ := by
      rcases except_fst_cases (processSchema_fst_si fuel v' p a₁.2)
        with ⟨e, h1, h2⟩ | ⟨x, y, h1, h2, hfst⟩
      · rw [hrecp] at h1
        exact Except.noConfusion h1
      · rw [hrecp] at h1
        rw [hrec'] at h2
        have hx := Except.ok.inj h1
        have hy := Except.ok.inj h2
        rw [← hx, ← hy] at hfst
        exact hfst
    subst hsub
    rcases hbr' with ⟨hcap', hbv'⟩ | ⟨hcap', hbv'⟩
    · have hmem : dropStar (sub₀ ++ "Map") ∈ a₂.2.processed := by
        rw [hbv']
        exact writeGoCode_mem p₃ _ _
      exact patFold_mono fuel (.mk t i .OBJECT d defs [] pprops ref it)
        (processSchema_processed_mono fuel) l₂ a₂ (nm, p') hrest₂ hmem
    · rw [hcap'] at hcap
      exact Bool.noConfusion hcap

/-- C10 witness: a concrete object with the two patterns `a` (integer
values) and `b` (string values); the synthesized reference is the inline
map type of the greatest pattern `b`, namely `map[string]string`. -/
theorem processSchema_patternProperties_witness :
    (processSchema (4 + 1) ⟨false, [], []⟩
        (.mk "m" "" .OBJECT "" [] []
          [("a", .mk "" "" .INTEGER "" [] [] [] "" none),
           ("b", .mk "" "" .STRING "" [] [] [] "" none)] "" none) =
      (sortStrings (([("a", Schema.mk "" "" .INTEGER "" [] [] [] "" none),
          ("b", Schema.mk "" "" .STRING "" [] [] [] "" none)] :
            List (String × Schema)).map Prod.fst)).foldlM
        (patternStep 4
          (.mk "m" "" .OBJECT "" [] []
            [("a", .mk "" "" .INTEGER "" [] [] [] "" none),
             ("b", .mk "" "" .STRING "" [] [] [] "" none)] "" none))
        (camelCase (if "m" ≠ "" then "m" else ""), ⟨false, [], []⟩)) ∧
    (∃ kmax vmax sub p₂,
      (sortStrings (([("a", Schema.mk "" "" .INTEGER "" [] [] [] "" none),
          ("b", Schema.mk "" "" .STRING "" [] [] [] "" none)] :
            List (String × Schema)).map Prod.fst)).getLast? = some kmax ∧
      lookupS [("a", Schema.mk "" "" .INTEGER "" [] [] [] "" none),
          ("b", Schema.mk "" "" .STRING "" [] [] [] "" none)] kmax = some vmax ∧
      processSchema 4 ⟨false, [], []⟩ vmax = .ok (sub, p₂) ∧
      "map[string]string" =
        if goTitle sub == sub then dropStar (sub ++ "Map")
        else "map[string]" ++ sub) ∧
    (∀ k, k ∈ ([("a", Schema.mk "" "" .INTEGER "" [] [] [] "" none),
          ("b", Schema.mk "" "" .STRING "" [] [] [] "" none)] :
            List (String × Schema)).map Prod.fst →
      ∀ (v : Schema) (sub : String) (q : Proc),
        lookupS [("a", Schema.mk "" "" .INTEGER "" [] [] [] "" none),
            ("b", Schema.mk "" "" .STRING "" [] [] [] "" none)] k = some v →
        processSchema 4 ⟨false, [], []⟩ v = .ok (sub, q) →
        (goTitle sub == sub) = true →
        dropStar (sub ++ "Map") ∈ (Proc.mk false [] []).processed) :=
  processSchema_patternProperties 4 ⟨false, [], []⟩ "m" "" "" ""
    [] [("a", .mk "" "" .INTEGER "" [] [] [] "" none),
        ("b", .mk "" "" .STRING "" [] [] [] "" none)] none
    (by decide) (by decide) "map[string]string" ⟨false, [], []⟩ rfl

/-! ### C5, C6, C7: resolution failure modes and the end-to-end scenarios -/

/-- C5 counterexample: the claim says a reference naming a loaded document
and a path whose final segment is absent from the reached property map
makes Resolve return no error with the node unchanged.  In fact the lookup
miss stores Go's typed-nil `*Schema` in the context, the final
`ctx.(*Schema)` comma-ok assertion then succeeds, and `*schema = *cast`
dereferences the nil pointer: the run crashes (modelled `Err.crash`)
rather than returning success. -/
theorem resolveRefs_missing_counterexample :
    resolveRefs [("a.json", aRaw)] "b.json" 10 wMissing = .error .crash ∧
    resolveRefs [("a.json", aRaw)] "b.json" 10 wMissing ≠ .ok wMissing := by
  refine ⟨rfl, fun hc => ?_⟩
  rw [show resolveRefs [("a.json", aRaw)] "b.json" 10 wMissing = .error .crash
    from rfl] at hc
  exact Except.noConfusion hc

/-- C5 (amended): for every node with a non-empty reference whose path walk
ends on an absent map key — the walk yields the nil `*Schema` context —
resolution crashes on the nil-pointer dereference of `*schema = *cast`
(the missing path component does yield a nil context silently, but the
subsequent copy makes the run panic, not succeed). -/
theorem resolveRefs_nil_context_crashes (docs : List (String × Schema))
    (reference : String) (fuel : Nat) (s : Schema)
    (href : (s.ref == "") = false)
    (hwalk : walkParts docs reference (.node (some s)) (splitSlash s.ref.data) =
      .ok (.node none)) :
    resolveRefs docs reference (fuel + 1) s = .error .crash := by
  rw [resolveRefs]
  simp only [href, hwalk]
  rfl

/-- C5 witness: the amended theorem applied to the `Missing` reference of
the two-document scenario. -/
theorem resolveRefs_nil_context_crashes_witness :
    (wMissing.ref == "") = false ∧
    walkParts [("a.json", aRaw)] "b.json" (.node (some wMissing))
      (splitSlash wMissing.ref.data) = .ok (.node none) ∧
    resolveRefs [("a.json", aRaw)] "b.json" (9 + 1) wMissing = .error .crash :=
  ⟨rfl, rfl,
    resolveRefs_nil_context_crashes [("a.json", aRaw)] "b.json" 9 wMissing rfl rfl⟩

/-- C6 counterexample: with the two files exactly as the claim words them —
`b.json`'s property `w` referencing `"a#/definitions/Widget"` — processing
does not succeed: document keys keep their file extension (the loader keys
documents by base file name, extension included), so the document part `a`
of the reference is not a key of the document set and the run fails with
the "Invalid reference file" error. -/
theorem twoFile_scenario_counterexample :
    processM 20 freshP (loadAll [("a.json", aRaw), ("b.json", bRawBad)]) =
      .error (.invalidFile "b.json" "a") ∧
    ∀ q : Proc,
      processM 20 freshP (loadAll [("a.json", aRaw), ("b.json", bRawBad)]) ≠ .ok q := by
  refine ⟨rfl, fun q hc => ?_⟩
  rw [show processM 20 freshP (loadAll [("a.json", aRaw), ("b.json", bRawBad)]) =
    .error (.invalidFile "b.json" "a") from rfl] at hc
  exact Except.noConfusion hc

/-- C6 (amended): with the reference written against the full document key
(`a.json#/definitions/Widget`) and the `b.json` root carrying the title
`b` (no pass titles a root after its file), processing the two documents
succeeds and yields exactly two declarations, `Widget` (fields in
lexicographic key order: `Count int`, then `ID string`) and
`B\x7bW *Widget\x7d`, each emitted once. -/
theorem twoFile_scenario :
    processM 20 freshP (loadAll [("a.json", aRaw), ("b.json", bRawGood)]) =
      .ok ⟨false, ["B", "Widget"],
        [("Widget", "type Widget struct \x7b\n    Count int `json:\"count,omitempty\" yaml:\"count,omitempty\"`\n    ID string `json:\"id,omitempty\" yaml:\"id,omitempty\"`\n\x7d\n\n"),
         ("B", "type B struct \x7b\n    W *Widget `json:\"w,omitempty\" yaml:\"w,omitempty\"`\n\x7d\n\n")]⟩ :=
  rfl

/-- C7 counterexample: under the full pipeline the name-assignment pass
runs first and titles the untitled array root `AnonymousObject1` (its
items get `AnonymousObject1Item`); synthesis of the titled array then
emits one `type AnonymousObject1 []string` declaration and returns
`AnonymousObject1` — not the inline `[]string` with no declaration the
claim describes. -/
theorem untitled_array_counterexample :
    parseSchemaM 10 [("a.json", arrRaw)] 0 "a.json" arrRaw =
      .ok (1, .mk "AnonymousObject1" "" .ARRAY "" [] [] [] ""
        (some (.mk "AnonymousObject1Item" "" .STRING "" [] [] [] "" none))) ∧
    processSchema 10 freshP (.mk "AnonymousObject1" "" .ARRAY "" [] [] [] ""
        (some (.mk "AnonymousObject1Item" "" .STRING "" [] [] [] "" none))) =
      .ok ("AnonymousObject1",
        ⟨false, ["AnonymousObject1"],
          [("AnonymousObject1", "type AnonymousObject1 []string\n\n")]⟩) ∧
    ("AnonymousObject1" : String) ≠ "[]string" ∧
    [("AnonymousObject1", "type AnonymousObject1 []string\n\n")].length ≠ 0 :=
  ⟨rfl, rfl, by decide, by decide⟩

/-- C7 (amended): the synthesizer alone does return the inline `[]string`
with no declaration for a nameless string array — first conjunct, for
every processor state — but the full pipeline's name-assignment pass
titles an untitled array root `AnonymousObject1` first (second conjunct),
after which synthesis emits a `type AnonymousObject1 []string` declaration
and returns its name (third conjunct). -/
theorem untitled_string_array (fuel : Nat) (p : Proc) :
    (processSchema (fuel + 2) p arrRaw = .ok ("[]string", p)) ∧
    (parseSchemaM (fuel + 2) [("a.json", arrRaw)] 0 "a.json" arrRaw =
      .ok (1, .mk "AnonymousObject1" "" .ARRAY "" [] [] [] ""
        (some (.mk "AnonymousObject1Item" "" .STRING "" [] [] [] "" none)))) ∧
    (processSchema 10 freshP (.mk "AnonymousObject1" "" .ARRAY "" [] [] [] ""
        (some (.mk "AnonymousObject1Item" "" .STRING "" [] [] [] "" none))) =
      .ok ("AnonymousObject1",
        ⟨false, ["AnonymousObject1"],
          [("AnonymousObject1", "type AnonymousObject1 []string\n\n")]⟩)) := by
  refine ⟨?_, rfl, rfl⟩
  rw [processSchema_array_some_eq (fuel + 1) p arrRaw strS rfl rfl]
  rw [processSchema_string_eq fuel p strS rfl]
  rfl

/-! ### C2: acyclic reference chains resolve completely -/

theorem ref_mk (t i d : String) (ty : SchemaType)
    (defs props pprops : List (String × Schema)) (ref : String) (it : Option Schema) :
    (Schema.mk t i ty d defs props pprops ref it).ref = ref := rfl

theorem fKVs_nil : refFreeB.fKVs [] = true := by
  rw [refFreeB.fKVs]

theorem fKVs_cons_iff (k : String) (v : Schema) (rest : List (String × Schema)) :
    refFreeB.fKVs ((k, v) :: rest) = true ↔
      (refFreeB v = true ∧ refFreeB.fKVs rest = true) := by
  conv_lhs => rw [refFreeB.fKVs]
  simp [Bool.and_eq_true]

theorem refFreeB_mk_iff (t i d : String) (ty : SchemaType)
    (defs props pprops : List (String × Schema)) (ref : String) (it : Option Schema) :
    refFreeB (.mk t i ty d defs props pprops ref it) = true ↔
      (ref = "" ∧ refFreeB.fKVs defs = true ∧ refFreeB.fKVs props = true ∧
        refFreeB.fKVs pprops = true ∧
        (match it with | none => True | some s => refFreeB s = true)) := by
  rw [refFreeB.eq_def]
  cases it <;> simp [Bool.and_eq_true, beq_iff_eq, and_assoc]

theorem fKVs_mem {l : List (String × Schema)} (h : refFreeB.fKVs l = true)
    {kv : String × Schema} (hkv : kv ∈ l) : refFreeB kv.2 = true := by
  induction l with
  | nil => cases hkv
  | cons a rest ih =>
    obtain ⟨k, v⟩ := a
    rw [fKVs_cons_iff] at h
    rcases List.mem_cons.mp hkv with he | hm
    · rw [he]
      exact h.1
    · exact ih h.2 hm

theorem hKVs_nil : heightB.hKVs [] = 0 := by
  rw [heightB.hKVs]

theorem hKVs_mem {l : List (String × Schema)} {n : Nat} (h : heightB.hKVs l ≤ n)
    {kv : String × Schema} (hkv : kv ∈ l) : heightB kv.2 ≤ n := by
  induction l with
  | nil => cases hkv
  | cons a rest ih =>
    obtain ⟨k, v⟩ := a
    rw [hKVs_cons] at h
    rcases List.mem_cons.mp hkv with he | hm
    · rw [he]
      exact le_trans (le_max_left _ _) h
    · exact ih (le_trans (le_max_right _ _) h) hm

theorem mapKVsM_id (f : Schema → Except Err Schema) :
    ∀ l : List (String × Schema), (∀ kv ∈ l, f kv.2 = .ok kv.2) →
      mapKVsM f l = .ok l := by
  intro l
  induction l with
  | nil => intro h; rfl
  | cons kv rest ih =>
    intro h
    obtain ⟨k, v⟩ := kv
    rw [mapKVsM]
    rw [h (k, v) (List.mem_cons_self _ _)]
    rw [ih (fun kv hkv => h kv (List.mem_cons_of_mem _ hkv))]
    rfl

theorem mapKVsM_resolve (f : Schema → Except Err Schema) (n : Nat) :
    ∀ l : List (String × Schema),
      (∀ kv ∈ l, ∃ v', f kv.2 = .ok v' ∧ refFreeB v' = true ∧ heightB v' ≤ n) →
      ∃ l', mapKVsM f l = .ok l' ∧ refFreeB.fKVs l' = true ∧ heightB.hKVs l' ≤ n := by
  intro l
  induction l with
  | nil =>
    intro h
    exact ⟨[], rfl, fKVs_nil, by rw [hKVs_nil]; exact Nat.zero_le n⟩
  | cons kv rest ih =>
    intro h
    obtain ⟨k, v⟩ := kv
    obtain ⟨v', hv, hfree, hht⟩ := h (k, v) (List.mem_cons_self _ _)
    obtain ⟨l', hl, hlfree, hlht⟩ := ih (fun kv hkv => h kv (List.mem_cons_of_mem _ hkv))
    refine ⟨(k, v') :: l', ?_, ?_, ?_⟩
    · rw [mapKVsM, hv, hl]
      rfl
    · rw [fKVs_cons_iff]
      exact ⟨hfree, hlfree⟩
    · rw [hKVs_cons]
      exact max_le hht hlht

theorem bounds_of_heightB_lt {a b c d n : Nat} (h : 1 + max a (max b (max c d)) ≤ n) :
    a < n ∧ b < n ∧ c < n ∧ d < n := by
  have ha : a ≤ max a (max b (max c d)) := le_max_left _ _
  have hb1 : b ≤ max b (max c d) := le_max_left _ _
  have hb2 : max b (max c d) ≤ max a (max b (max c d)) := le_max_right _ _
  have hc1 : c ≤ max c d := le_max_left _ _
  have hc2 : max c d ≤ max b (max c d) := le_max_right _ _
  have hd : d ≤ max c d := le_max_right _ _
  omega

theorem resolveRefs_noref_eq (docs : List (String × Schema)) (reference : String)
    (fuel : Nat) (t i d : String) (ty : SchemaType)
    (defs props pprops : List (String × Schema)) (it : Option Schema) :
    resolveRefs docs reference (fuel + 1) (.mk t i ty d defs props pprops "" it) = (do
      let defs' ← mapKVsM (fun v => resolveRefs docs reference fuel v) defs
      let props' ← mapKVsM (fun v => resolveRefs docs reference fuel v) props
      let pprops' ← mapKVsM (fun v => resolveRefs docs reference fuel v) pprops
      let it' ←
        match it with
        | none => pure none
        | some item => do
          let item' ← resolveRefs docs reference fuel item
          pure (some item')
      pure (.mk t i ty d defs' props' pprops' "" it')) := by
  rw [resolveRefs]
  rfl

theorem resolveRefs_ref_eq (docs : List (String × Schema)) (reference : String)
    (fuel : Nat) (s : Schema) (href : (s.ref == "") = false) :
    resolveRefs docs reference (fuel + 1) s = (do
      let ctx ← walkParts docs reference (.node (some s)) (splitSlash s.ref.data)
      match ctx with
      | Ctx.node (some cast) =>
          resolveRefs docs reference fuel cast >>= resolveChildren docs reference fuel
      | Ctx.node none => (.error .crash : Except Err Schema)
      | Ctx.smap _ =>
          resolveRefs docs reference fuel s >>= resolveChildren docs reference fuel) := by
  rw [resolveRefs]
  simp only [href]
  rfl

theorem resolveRefs_refFree_id (docs : List (String × Schema)) (reference : String) :
    ∀ (fuel : Nat) (s : Schema), refFreeB s = true → heightB s ≤ fuel →
      resolveRefs docs reference fuel s = .ok s := by
  intro fuel
  induction fuel with
  | zero =>
    intro s hf hh
    obtain ⟨t, i, ty, d, defs, props, pprops, ref, it⟩ := s
    rw [heightB_mk] at hh
    omega
  | succ fuel ih =>
    intro s hf hh
    obtain ⟨t, i, ty, d, defs, props, pprops, ref, it⟩ := s
    rw [refFreeB_mk_iff] at hf
    obtain ⟨href, hfd, hfp, hfpp, hfit⟩ := hf
    subst href
    rw [heightB_mk] at hh
    obtain ⟨hhd, hhp, hhpp, hhit⟩ := bounds_of_heightB_le hh
    rw [resolveRefs_noref_eq]
    rw [mapKVsM_id _ defs (fun kv hkv => ih kv.2 (fKVs_mem hfd hkv) (hKVs_mem hhd hkv))]
    rw [mapKVsM_id _ props (fun kv hkv => ih kv.2 (fKVs_mem hfp hkv) (hKVs_mem hhp hkv))]
    rw [mapKVsM_id _ pprops (fun kv hkv => ih kv.2 (fKVs_mem hfpp hkv) (hKVs_mem hhpp hkv))]
    cases it with
    | none => rfl
    | some item =>
      dsimp only at hfit hhit ⊢
      rw [ih item hfit hhit]
      rfl

/-- C2: for every reference chain of depth at most N with no cycle — the
decidable hypothesis `resolvableB`: every hop of every chain in the tree
lands, via the reference-path walk, on a node of the loaded document set,
and reaches a node with an empty reference within the budget N (a cyclic
chain satisfies this for no budget) — resolution terminates: any fuel of
at least N suffices, the run returns successfully, and the resolved tree
is entirely reference-free; in particular the resolved node's own
reference field is empty.  The mechanism is the one the claim describes:
after the walk substitutes the referenced node, resolution recurses on
that same node first (following the chain) and only then descends into
the children. -/
theorem resolveRefs_chain_terminates (docs : List (String × Schema)) (reference : String)
    (n : Nat) :
    ∀ (fuel : Nat) (s : Schema), resolvableB docs reference n s = true → n ≤ fuel →
      ∃ s', resolveRefs docs reference fuel s = .ok s' ∧ refFreeB s' = true ∧
        heightB s' ≤ n ∧ s'.ref = "" := by
  induction n with
  | zero =>
    intro fuel s hres hle
    rw [resolvableB] at hres
    exact Bool.noConfusion hres
  | succ n ih =>
    intro fuel s hres hle
    cases fuel with
    | zero => exact absurd hle (by omega)
    | succ f =>
      have hle' : n ≤ f := by omega
      rw [resolvableB] at hres
      cases href : s.ref == "" with
      | true =>
        rw [href] at hres
        have hres' : ((s.definitions.all fun kv => resolvableB docs reference n kv.2) &&
            (s.properties.all fun kv => resolvableB docs reference n kv.2) &&
            (s.patternProperties.all fun kv => resolvableB docs reference n kv.2) &&
            (match s.items with
             | none => true
             | some item => resolvableB docs reference n item)) = true := hres
        simp only [Bool.and_eq_true, List.all_eq_true] at hres'
        obtain ⟨⟨⟨hd, hp⟩, hpp⟩, hit⟩ := hres'
        obtain ⟨t, i, ty, d, defs, props, pprops, ref, it⟩ := s
        have hrefe : ref = "" := eq_of_beq href
        subst hrefe
        obtain ⟨defs', hdefs, hdfree, hdht⟩ :=
          mapKVsM_resolve (fun v => resolveRefs docs reference f v) n defs
            (fun kv hkv => (ih f kv.2 (hd kv hkv) hle').imp
              (fun v' h => ⟨h.1, h.2.1, h.2.2.1⟩))
        obtain ⟨props', hprops, hpfree, hpht⟩ :=
          mapKVsM_resolve (fun v => resolveRefs docs reference f v) n props
            (fun kv hkv => (ih f kv.2 (hp kv hkv) hle').imp
              (fun v' h => ⟨h.1, h.2.1, h.2.2.1⟩))
        obtain ⟨pprops', hpprops, hppfree, hppht⟩ :=
          mapKVsM_resolve (fun v => resolveRefs docs reference f v) n pprops
            (fun kv hkv => (ih f kv.2 (hpp kv hkv) hle').imp
              (fun v' h => ⟨h.1, h.2.1, h.2.2.1⟩))
        cases it with
        | none =>
          refine ⟨.mk t i ty d defs' props' pprops' "" none, ?_, ?_, ?_, rfl⟩
          · rw [resolveRefs_noref_eq]
            simp only [hdefs, hprops, hpprops, except_ok_bind]
            rfl
          · rw [refFreeB_mk_iff]
            exact ⟨rfl, hdfree, hpfree, hppfree, trivial⟩
          · rw [heightB_mk]
            have hmax : max (heightB.hKVs defs') (max (heightB.hKVs props')
                (max (heightB.hKVs pprops') 0)) ≤ n :=
              max_le hdht (max_le hpht (max_le hppht (Nat.zero_le n)))
            exact (by omega : 1 + max (heightB.hKVs defs') (max (heightB.hKVs props')
              (max (heightB.hKVs pprops') 0)) ≤ n + 1)
        | some item =>
          have hit' : resolvableB docs reference n item = true := hit
          obtain ⟨item', hitem, hifree, hiht, hiref⟩ := ih f item hit' hle'
          refine ⟨.mk t i ty d defs' props' pprops' "" (some item'), ?_, ?_, ?_, rfl⟩
          · rw [resolveRefs_noref_eq]
            simp only [hdefs, hprops, hpprops, hitem, except_ok_bind]
            rfl
          · rw [refFreeB_mk_iff]
            exact ⟨rfl, hdfree, hpfree, hppfree, hifree⟩
          · rw [heightB_mk]
            have hmax : max (heightB.hKVs defs') (max (heightB.hKVs props')
                (max (heightB.hKVs pprops') (heightB item'))) ≤ n :=
              max_le hdht (max_le hpht (max_le hppht hiht))
            exact (by omega : 1 + max (heightB.hKVs defs') (max (heightB.hKVs props')
              (max (heightB.hKVs pprops') (heightB item'))) ≤ n + 1)
      | false =>
        rw [href] at hres
        have hres' : (match walkParts docs reference (.node (some s))
              (splitSlash s.ref.data) with
            | Except.ok (Ctx.node (some cast)) => resolvableB docs reference n cast
            | _ => false) = true := hres
        cases hwalk : walkParts docs reference (.node (some s)) (splitSlash s.ref.data) with
        | error e =>
          rw [hwalk] at hres'
          simp at hres'
        | ok ctx =>
          rw [hwalk] at hres'
          cases ctx with
          | smap m => simp at hres'
          | node o =>
            cases o with
            | none => simp at hres'
            | some cast =>
              have hcast : resolvableB docs reference n cast = true := hres'
              obtain ⟨s₁, hs₁, h₁free, h₁ht, h₁ref⟩ := ih f cast hcast hle'
              obtain ⟨t₁, i₁, ty₁, d₁, defs₁, props₁, pprops₁, ref₁, it₁⟩ := s₁
              rw [refFreeB_mk_iff] at h₁free
              obtain ⟨hrefe, hfd, hfp, hfpp, hfit⟩ := h₁free
              subst hrefe
              rw [heightB_mk] at h₁ht
              obtain ⟨hld, hlp, hlpp, hlit⟩ := bounds_of_heightB_lt h₁ht
              have hdefs := mapKVsM_id (fun v => resolveRefs docs reference f v) defs₁
                (fun kv hkv => resolveRefs_refFree_id docs reference f kv.2 (fKVs_mem hfd hkv)
                  (by have h1 := hKVs_mem (le_refl (heightB.hKVs defs₁)) hkv; omega))
              have hprops := mapKVsM_id (fun v => resolveRefs docs reference f v) props₁
                (fun kv hkv => resolveRefs_refFree_id docs reference f kv.2 (fKVs_mem hfp hkv)
                  (by have h1 := hKVs_mem (le_refl (heightB.hKVs props₁)) hkv; omega))
              have hpprops := mapKVsM_id (fun v => resolveRefs docs reference f v) pprops₁
                (fun kv hkv => resolveRefs_refFree_id docs reference f kv.2 (fKVs_mem hfpp hkv)
                  (by have h1 := hKVs_mem (le_refl (heightB.hKVs pprops₁)) hkv; omega))
              cases it₁ with
              | none =>
                refine ⟨.mk t₁ i₁ ty₁ d₁ defs₁ props₁ pprops₁ "" none, ?_, ?_, ?_, rfl⟩
                · rw [resolveRefs_ref_eq docs reference f s href, hwalk]
                  simp only [except_ok_bind]
                  rw [hs₁]
                  simp only [except_ok_bind]
                  rw [resolveChildren]
                  simp only [hdefs, hprops, hpprops, except_ok_bind]
                  rfl
                · rw [refFreeB_mk_iff]
                  exact ⟨rfl, hfd, hfp, hfpp, trivial⟩
                · rw [heightB_mk]
                  have h₁ht' : 1 + max (heightB.hKVs defs₁) (max (heightB.hKVs props₁)
                      (max (heightB.hKVs pprops₁) 0)) ≤ n := h₁ht
                  exact (by omega : 1 + max (heightB.hKVs defs₁) (max (heightB.hKVs props₁)
                    (max (heightB.hKVs pprops₁) 0)) ≤ n + 1)
              | some item =>
                have hfit' : refFreeB item = true := hfit
                have hlit' : heightB item < n := hlit
                have hitem := resolveRefs_refFree_id docs reference f item hfit' (by omega)
                refine ⟨.mk t₁ i₁ ty₁ d₁ defs₁ props₁ pprops₁ "" (some item), ?_, ?_, ?_, rfl⟩
                · rw [resolveRefs_ref_eq docs reference f s href, hwalk]
                  simp only [except_ok_bind]
                  rw [hs₁]
                  simp only [except_ok_bind]
                  rw [resolveChildren]
                  simp only [hdefs, hprops, hpprops, hitem, except_ok_bind]
                  rfl
                · rw [refFreeB_mk_iff]
                  exact ⟨rfl, hfd, hfp, hfpp, hfit'⟩
                · rw [heightB_mk]
                  have h₁ht' : 1 + max (heightB.hKVs defs₁) (max (heightB.hKVs props₁)
                      (max (heightB.hKVs pprops₁) (heightB item))) ≤ n := h₁ht
                  exact (by omega : 1 + max (heightB.hKVs defs₁) (max (heightB.hKVs props₁)
                    (max (heightB.hKVs pprops₁) (heightB item))) ≤ n + 1)

/-- C2 witness: a two-hop acyclic chain `chainX → chainB → chainA` inside
the single document `c.json`, resolvable with budget 3 and fuel 3. -/
theorem resolveRefs_chain_terminates_witness :
    resolvableB [("c.json", chainDoc)] "c.json" 3 chainX = true ∧ 3 ≤ 3 ∧
    (∃ s', resolveRefs [("c.json", chainDoc)] "c.json" 3 chainX = .ok s' ∧
      refFreeB s' = true ∧ heightB s' ≤ 3 ∧ s'.ref = "") :=
  ⟨rfl, by decide,
    resolveRefs_chain_terminates [("c.json", chainDoc)] "c.json" 3 3 chainX rfl (by decide)⟩
